import Mathlib

/-!
Verification development for the OpenITI discovery service.

Text is modelled at the codepoint level: a Python `str` value is a list of
Unicode codepoints (`List ℕ`).  Pure functions of the service are translated
directly; store clients and the embedding model are opaque oracles supplied
as parameters, so that every observable decision made by the service's own
code is captured by the definitions below.
-/

namespace Norm

/-- Codepoint of the tatweel character U+0640 (`TATWEEL_RE`). -/
def tatweel : ℕ := 0x640

/-- Membership in `AR_DIACRITICS_RE`, the class `[ً-ْٰ]`. -/
def isArDiacritic (n : ℕ) : Bool := (0x64B ≤ n && n ≤ 0x652) || n == 0x670

/-- Translation table `CHAR_MAP` of `normalize_arabic_script` (ingest/run.py
and text_normalization.py): alef variants to bare alef, ta marbuta to ha,
hamza carriers to waw/ya, Arabic kaf/ya folded to their Persian forms. -/
def charTrans (n : ℕ) : ℕ :=
  if n = 0x671 then 0x627
  else if n = 0x623 then 0x627
  else if n = 0x625 then 0x627
  else if n = 0x622 then 0x627
  else if n = 0x649 then 0x64A
  else if n = 0x629 then 0x647
  else if n = 0x624 then 0x648
  else if n = 0x626 then 0x64A
  else if n = 0x643 then 0x6A9
  else if n = 0x64A then 0x6CC
  else n

/-- Whitespace class of Python's `re` module (`\s`) over codepoints. -/
def isPySpace (n : ℕ) : Bool :=
  (9 ≤ n && n ≤ 13) || (28 ≤ n && n ≤ 32) || n == 0x85 || n == 0xA0 ||
  n == 0x1680 || (0x2000 ≤ n && n ≤ 0x200A) || n == 0x2028 || n == 0x2029 ||
  n == 0x202F || n == 0x205F || n == 0x3000

/-- Whitespace collapse `re.sub(r"\s+", " ", s).strip()`: every maximal run
of whitespace becomes a single space and outer whitespace is removed, which
is the same as splitting into whitespace-free words and rejoining them with
single spaces. -/
def collapseWs (s : List ℕ) : List ℕ :=
  List.intercalate [32] ((s.splitOnP (fun c => isPySpace c)).filter (· ≠ []))

/-- Translation of `normalize_arabic_script` (ingest/run.py lines 80-86;
text_normalization.py applies the same stages with every toggle at its
default `True`): drop tatweel, drop diacritics, apply the character table,
collapse whitespace. -/
def normalize (s : List ℕ) : List ℕ :=
  collapseWs ((((s.filter (fun c => c ≠ tatweel)).filter
    (fun c => ¬ isArDiacritic c)).map charTrans))

end Norm

namespace Chunking

/-- Loop body of `chunk_words` (ingest/run.py lines 488-502).  The Python
loop `while i < n` advances `i` by `step ≥ 1` each iteration, so it runs at
most `words.length` times; the fuel argument is instantiated with that bound
and never runs out.  Each iteration yields the running chunk index, the
start offset and the slice `words[i : i + target]`. -/
def chunkLoop (words : List ℕ) (target step : ℕ) :
    ℕ → ℕ → ℕ → List (ℕ × ℕ × List ℕ)
  | 0, _, _ => []
  | fuel + 1, i, idx =>
    if i < words.length then
      (idx, i, (words.drop i).take target) ::
        chunkLoop words target step fuel (i + step) (idx + 1)
    else []

/-- Translation of `chunk_words`: `target <= 0` raises `ValueError`
(modelled as `none`); otherwise the step is `target - overlap` when
`overlap < target` and falls back to `target`. -/
def chunk_words (words : List ℕ) (target overlap : ℕ) :
    Option (List (ℕ × ℕ × List ℕ)) :=
  if target = 0 then none
  else
    some (chunkLoop words target
      (if overlap < target then target - overlap else target)
      words.length 0 0)

/-- Chunk-count formula asserted by the specification: one window when
`N <= T`, otherwise `ceil((N - T)/(T - O)) + 1`. -/
def claimedChunkCount (n target overlap : ℕ) : ℕ :=
  if n ≤ target then 1
  else ((n - target) + (target - overlap) - 1) / (target - overlap) + 1

/-- Reassembly of the emitted windows with the overlapping prefix of every
window after the first removed. -/
def recon (overlap : ℕ) : List (ℕ × ℕ × List ℕ) → List ℕ
  | [] => []
  | w :: rest => w.2.2 ++ (rest.map (fun e => e.2.2.drop overlap)).flatten

end Chunking

namespace Embeddings

/-- Role marker `"query: "` prepended by `_prefixed_text`
(embedding_service.py lines 45-49), as codepoints. -/
def queryMarker : List ℕ := [113, 117, 101, 114, 121, 58, 32]

/-- Role marker `"passage: "` prepended by `_prefixed_text`, as
codepoints. -/
def passageMarker : List ℕ := [112, 97, 115, 115, 97, 103, 101, 58, 32]

/-- Translation of `_prefixed_text` (embedding_service.py): normalize, then
prepend `"query: "` when the role tag is exactly `"query"`, otherwise
prepend `"passage: "`. -/
def prefixed_text (text : List ℕ) (inputType : String) : List ℕ :=
  if inputType = "query" then queryMarker ++ Norm.normalize text
  else passageMarker ++ Norm.normalize text

/-- Translation of `encode_texts` (embedding_service.py lines 52-61),
observed at the level of the strings handed to the embedding model: the
model itself is an opaque text-to-vector map, so role handling is fully
captured by the prepared texts. -/
def encode_texts (texts : List (List ℕ)) (inputType : String) :
    List (List ℕ) :=
  texts.map (fun t => prefixed_text t inputType)

/-- Query text prepared by the `/search` handler (main.py line 230:
`encode_texts([q], "query")[0]`). -/
def searchPreparedQuery (q : List ℕ) : List ℕ :=
  (encode_texts [q] "query").headI

/-- Texts handed to `model.encode` by `_embed_and_upsert`
(ingest/run.py lines 1061-1075): `texts = [t for _, t, _ in
chunks_for_vectors]`, encoded verbatim with no role marker. -/
def embedAndUpsertTexts (chunks : List (String × List ℕ × ℕ)) :
    List (List ℕ) :=
  chunks.map (fun c => c.2.1)

/-- Validation pattern `^(query|passage)$` on `EmbedRequest.input_type`
(schemas.py line 43), applied by the request-model layer before the handler
body runs. -/
def validEmbedInputType (s : String) : Bool := s = "query" || s = "passage"

/-- Rejection cases of the `/embed` operation. -/
inductive EmbedReject where
  | invalidInputType
  | emptyTexts
  | batchTooLarge
  | textTooLong
deriving DecidableEq

/-- Translation of the `/embed` endpoint (main.py lines 135-155) together
with its request model: the pattern on `input_type` is checked by request
validation first, then the handler rejects empty batches, oversized batches
and over-length texts, and finally encodes the batch. -/
def embedEndpoint (maxBatch maxLen : ℕ) (texts : List (List ℕ))
    (inputType : String) : Except EmbedReject (List (List ℕ)) :=
  if ¬ validEmbedInputType inputType then .error .invalidInputType
  else if texts.isEmpty then .error .emptyTexts
  else if maxBatch < texts.length then .error .batchTooLarge
  else if texts.any (fun t => maxLen < t.length) then .error .textTooLong
  else .ok (encode_texts texts inputType)

end Embeddings

namespace Sanitize

/-- Whitespace test for the `\s` inside `TAG_RE` (sanitize.py line 6). -/
def isPySpaceChar (c : Char) : Bool := Norm.isPySpace c.toNat

/-- Attempt to match `TAG_RE = </?([a-zA-Z0-9]+)(?:\s[^>]*)?>` at the start
of `cs`.  On success, returns whether the tag was closing, the tag name and
the remainder of the input after the match. -/
def matchTag (cs : List Char) : Option (Bool × List Char × List Char) :=
  match cs with
  | c0 :: cs1 =>
    if c0 = '<' then
      let closing : Bool := cs1.head? = some '/'
      let cs2 := if closing then cs1.tail else cs1
      let name := cs2.takeWhile Char.isAlphanum
      if name.isEmpty then none
      else
        match cs2.drop name.length with
        | [] => none
        | d :: ds =>
          if d = '>' then some (closing, name, ds)
          else if isPySpaceChar d then
            match ds.drop (ds.takeWhile (· ≠ '>')).length with
            | [] => none
            | e :: es => if e = '>' then some (closing, name, es) else none
          else none
    else none
  | [] => none

/-- One pass of `TAG_RE.sub(_replace, value)` (sanitize.py lines 9-23),
written with explicit fuel so that it evaluates by kernel reduction; each
match consumes at least one character, so fuel equal to the input length
never runs out.  `re.sub` scans left to right, replaces each
non-overlapping match (every match starts with `<`) and keeps every other
character. -/
def sanitizeFuel : ℕ → List Char → List Char
  | 0, cs => cs
  | _ + 1, [] => []
  | fuel + 1, c :: cs =>
    if c = '<' then
      match matchTag (c :: cs) with
      | some (closing, name, rest) =>
        (if name.map Char.toLower = ['e', 'm'] then
          (if closing then '<' :: '/' :: 'e' :: 'm' :: '>' :: []
           else '<' :: 'e' :: 'm' :: '>' :: [])
         else []) ++ sanitizeFuel fuel rest
      | none => c :: sanitizeFuel fuel cs
    else c :: sanitizeFuel fuel cs

/-- Translation of `sanitize_highlight_html`: the empty string is returned
unchanged (`if not value`), otherwise every `TAG_RE` match is rewritten. -/
def sanitizeChars (cs : List Char) : List Char := sanitizeFuel cs.length cs

/-- String-level wrapper of the sanitizer. -/
def sanitizeStr (s : String) : String := ⟨sanitizeChars s.data⟩

/-- Decomposition of a snippet into plain-text pieces and markup tags, used
to state what the sanitizer does on arbitrary well-formed inputs. -/
inductive Item where
  | text (s : List Char)
  | tag (closing : Bool) (name : List Char) (attrs : List Char)

/-- Rendering of one decomposition item back into raw characters. -/
def renderItem : Item → List Char
  | .text s => s
  | .tag closing name attrs =>
    '<' :: (if closing then ['/'] else []) ++ name ++ attrs ++ ['>']

/-- Rendering of a decomposition. -/
def renderItems (items : List Item) : List Char :=
  (items.map renderItem).flatten

/-- Well-formedness of a decomposition item: text pieces contain no `<`
(so no tag can start inside them), tag names are nonempty alphanumeric
runs, and attribute sections are either absent or start with whitespace
and contain no `>`. -/
def WfItem : Item → Prop
  | .text s => '<' ∉ s
  | .tag _ name attrs =>
    name ≠ [] ∧ (∀ c ∈ name, Char.isAlphanum c) ∧
      (attrs = [] ∨ ((∃ c cs, attrs = c :: cs ∧ isPySpaceChar c) ∧ '>' ∉ attrs))

/-- Expected output of the sanitizer for one item: text is kept, the
emphasis tag is kept in canonical form, every other tag is deleted. -/
def sanitizeItem : Item → List Char
  | .text s => s
  | .tag closing name _ =>
    if name.map Char.toLower = ['e', 'm'] then
      if closing then ['<', '/', 'e', 'm', '>'] else ['<', 'e', 'm', '>']
    else []

end Sanitize

namespace Fusion

/-- Rank of `c` in a retriever's hit list, 1-based.  The Python code builds
the rank dictionary by `enumerate(hits, start=1)`, so when an identifier
occurs more than once the last occurrence wins. -/
def rankOf : List String → String → Option ℕ
  | [], _ => none
  | x :: xs, c =>
    match rankOf xs c with
    | some r => some (r + 1)
    | none => if x = c then some 1 else none

/-- Contribution of one retriever to the fused score: `1/(k + rank)` when
the identifier appears, `0` otherwise. -/
def rrfScoreOf (k : ℕ) (ids : List String) (c : String) : ℚ :=
  match rankOf ids c with
  | some r => 1 / ((k : ℚ) + (r : ℚ))
  | none => 0

/-- Fused score of a candidate over the lexical and vector hit lists
(main.py lines 389-397). -/
def rrfScore (k : ℕ) (bmIds vecIds : List String) (c : String) : ℚ :=
  rrfScoreOf k bmIds c + rrfScoreOf k vecIds c

/-- Candidate pool `all_ids` (main.py line 387): identifiers of both
retrievers with falsy (empty) identifiers removed.  Python enumerates this
set in unspecified order; it is modelled as the deduplicated
concatenation, which affects only the relative order of exact score
ties. -/
def rrfCandidates (bmIds vecIds : List String) : List String :=
  ((bmIds.filter (· ≠ "")) ++ (vecIds.filter (· ≠ ""))).dedup

/-- Descending-score comparison used to sort the fused list. -/
def scoreGe (a b : String × ℚ) : Prop := b.2 ≤ a.2

instance : DecidableRel scoreGe := fun a b => inferInstanceAs (Decidable (b.2 ≤ a.2))

instance : IsTotal (String × ℚ) scoreGe := ⟨fun a b => le_total b.2 a.2⟩

instance : IsTrans (String × ℚ) scoreGe :=
  ⟨fun _ _ _ h h' => le_trans h' h⟩

/-- Fused candidate list (main.py lines 388-399): score every candidate,
then sort by descending fused score.  `list.sort(key=..., reverse=True)` is
a stable descending sort, which insertion sort under `scoreGe`
implements. -/
def rrfFuse (k : ℕ) (bmIds vecIds : List String) : List (String × ℚ) :=
  List.insertionSort scoreGe
    ((rrfCandidates bmIds vecIds).map (fun c => (c, rrfScore k bmIds vecIds c)))

/-- Translation of `_rrf_k` (main.py lines 70-72): configured value with
default 60. -/
def rrf_k (cfg : Option ℕ) : ℕ := cfg.getD 60

/-- Score formula as worded by the specification: sum over the retrievers
in which the identifier appears of `1/(k + rank_in_that_retriever)`. -/
def specRrfScore (k : ℕ) (retrievers : List (List String)) (c : String) : ℚ :=
  ((retrievers.filterMap (fun ids => rankOf ids c)).map
    (fun r => 1 / ((k : ℚ) + (r : ℚ)))).sum

end Fusion

namespace SearchApi

/-- Search modes of the `/search` endpoint. -/
inductive Mode where
  | bm25
  | vector
  | hybrid
deriving DecidableEq

/-- One lexical-store hit as consumed by the handler: `_id`, the optional
`chunk_id` of `_source`, `_score`, the raw `_source` record (opaque here)
and the highlight fragment list for the content field. -/
structure OsHit where
  idField : String
  srcChunkId : Option String
  score : ℚ
  src : String
  highlight : Option (List String)
deriving DecidableEq

/-- One vector-store hit: optional `chunk_id`, score and stored payload
(opaque here). -/
structure VecHit where
  chunkId : Option String
  score : ℚ
  payload : String
deriving DecidableEq

/-- Result of a lexical query: hits, total and the aggregations blob
(opaque here; facet-label mapping is outside the claims). -/
structure Bm25Result where
  hits : List OsHit
  total : ℕ
  aggs : String
deriving DecidableEq

/-- One hit of the response. -/
structure SearchHit where
  chunk_id : String
  score : ℚ
  source : String
  highlight : Option (List String)
deriving DecidableEq

/-- Response of the `/search` endpoint; `facets` is `some` aggregations
blob when the branch requests aggregations and `none` when the branch
returns empty facets. -/
structure SearchResponse where
  query : String
  requestedMode : Mode
  effectiveMode : Mode
  warnings : List String
  total : ℕ
  page : ℕ
  size : ℕ
  results : List SearchHit
  facets : Option String
deriving DecidableEq

/-- Store oracles and configuration the handler depends on, over an
abstract filter type `φ`: `bm25 q size from filters include_aggs`,
`vectorSearch vector limit offset filters`, `vectorCount filters`,
`filterChunkIds ids filters`, `fetchSources ids` (as a partial map) and the
query encoder `encode text role`.  Store calls that raise are `Except`
errors. -/
structure Deps (φ : Type) where
  maxQueryLen : ℕ
  rrfK : ℕ
  bm25 : String → ℕ → ℕ → φ → Bool → Bm25Result
  vectorSearch : List ℚ → ℕ → ℕ → φ → Except String (List VecHit)
  vectorCount : φ → Except String ℕ
  filterChunkIds : List String → φ → List String
  fetchSources : List String → String → Option String
  encode : String → String → List ℚ

/-- Identifier of a lexical hit:
`(h.get("_source") or {}).get("chunk_id") or h.get("_id")` — the source
chunk id when truthy, the document id otherwise. -/
def osId (h : OsHit) : String :=
  match h.srcChunkId with
  | some c => if c = "" then h.idField else c
  | none => h.idField

/-- Conversion of a lexical hit into a response hit, sanitizing each
highlight fragment (`_sanitize_highlight`). -/
def osHitToSearchHit (h : OsHit) : SearchHit :=
  { chunk_id := osId h
    score := h.score
    source := h.src
    highlight := h.highlight.map (List.map Sanitize.sanitizeStr) }

/-- Truthy chunk identifiers of a vector hit list:
`[str(h.get("chunk_id")) for h in hits if h.get("chunk_id")]`. -/
def truthyIds (vhits : List VecHit) : List String :=
  (vhits.filterMap VecHit.chunkId).filter (· ≠ "")

/-- Identifier list of a vector hit list as enumerated for ranking: every
hit occupies a rank position, falsy identifiers are modelled by `""` and
filtered out of the candidate pool. -/
def vecIdsOf (vhits : List VecHit) : List String :=
  vhits.map (fun h => h.chunkId.getD "")

/-- Candidate pool size `_candidate_k` (main.py lines 62-67) at the default
configuration: `clamp(page*size*5, 100, 1000)`. -/
def candidateK (page size : ℕ) : ℕ := max 100 (min 1000 (page * size * 5))

/-- Last lexical hit carrying a given identifier (`bm25_by_id` is a dict
comprehension, so the last occurrence wins). -/
def lookupLastOs (hits : List OsHit) (c : String) : Option OsHit :=
  hits.reverse.find? (fun h => osId h == c)

/-- First vector hit carrying a given identifier
(`next((h.get("payload") ... for h in vec_hits if str(h.get("chunk_id")) == cid), {})`). -/
def vecPayloadFor (vhits : List VecHit) (c : String) : Option String :=
  (vhits.find? (fun h => h.chunkId.getD "" == c)).map VecHit.payload

/-- Translation of the `/search` handler (main.py lines 158-429) for the
three modes.  Errors are HTTP status codes.  The embedding-trace fields of
the response are configuration pass-through and are omitted; `facets` keeps
the raw aggregations blob. -/
def search {φ : Type} (deps : Deps φ) (q : String) (mode : Mode)
    (size page : ℕ) (filters : φ) : Except ℕ SearchResponse :=
  if deps.maxQueryLen < q.length then .error 400
  else
    match mode with
    | .bm25 =>
      let r := deps.bm25 q size ((page - 1) * size) filters true
      .ok
        { query := q, requestedMode := .bm25, effectiveMode := .bm25
          warnings := [], total := r.total, page := page, size := size
          results := r.hits.map osHitToSearchHit, facets := some r.aggs }
    | .vector =>
      let qv := deps.encode q "query"
      match deps.vectorSearch qv size ((page - 1) * size) filters,
          deps.vectorCount filters with
      | .ok vhits, .ok total =>
        let ids := truthyIds vhits
        let kept :=
          if ids.isEmpty then vhits
          else
            let allowed := deps.filterChunkIds ids filters
            vhits.filter (fun h =>
              match h.chunkId with
              | some c => allowed.contains c
              | none => false)
        let sources := deps.fetchSources (truthyIds kept)
        let results := kept.filterMap (fun h =>
          match h.chunkId with
          | some c =>
            if c = "" then none
            else some
              { chunk_id := c, score := h.score
                source := (sources c).getD h.payload, highlight := none }
          | none => none)
        .ok
          { query := q, requestedMode := .vector, effectiveMode := .vector
            warnings := [], total := total, page := page, size := size
            results := results, facets := none }
      | _, _ => .error 503
    | .hybrid =>
      let qv := deps.encode q "query"
      let ck := candidateK page size
      let bmRes := deps.bm25 q ck 0 filters false
      match deps.vectorSearch qv ck 0 filters, deps.vectorCount filters with
      | .ok vhits, .ok vecTotal =>
        let bmIds := bmRes.hits.map osId
        let vecIds := vecIdsOf vhits
        let fused := Fusion.rrfFuse deps.rrfK bmIds vecIds
        let pageFused := (fused.drop ((page - 1) * size)).take size
        let sourceMap := deps.fetchSources (pageFused.map Prod.fst)
        let results := pageFused.map (fun p =>
          let base := lookupLastOs bmRes.hits p.1
          { chunk_id := p.1, score := p.2
            source :=
              match sourceMap p.1 with
              | some s => s
              | none => (vecPayloadFor vhits p.1).getD ""
            highlight :=
              base.bind (fun b => b.highlight.map (List.map Sanitize.sanitizeStr)) })
        .ok
          { query := q, requestedMode := .hybrid, effectiveMode := .hybrid
            warnings := [], total := max bmRes.total vecTotal, page := page
            size := size, results := results, facets := none }
      | _, _ =>
        let pr := deps.bm25 q size ((page - 1) * size) filters true
        .ok
          { query := q, requestedMode := .hybrid, effectiveMode := .bm25
            warnings := ["qdrant_unavailable_fallback_bm25"]
            total := pr.total, page := page, size := size
            results := pr.hits.map osHitToSearchHit, facets := some pr.aggs }

end SearchApi

namespace IngestRun

/-- Pipeline statuses written by the ingest runner.  The specification's
`indexed_lexical`/`indexed_vector` are realized as
`indexed_bm25`/`embedded`. -/
inductive Status where
  | discovered
  | parsed
  | indexedBm25
  | embedded
  | complete
  | failed
deriving DecidableEq

/-- Statuses written by one buffer flush (ingest/run.py lines 1026-1048):
`indexed_bm25` after the lexical bulk write, then `embedded` when
embeddings are enabled. -/
def flushWrites (e : Bool) : List Status :=
  Status.indexedBm25 :: (if e then [Status.embedded] else [])

/-- Status writes of the chunk loop of `run()` (ingest/run.py lines
962-1052) for one document: rows accumulate in a buffer of size `b`; a full
buffer is flushed, a trailing partial buffer is flushed at the end, and the
document finishes with `complete` after the chunk-link pass. -/
def ingestLoop (b : ℕ) (e : Bool) : List (ℕ × ℕ × List ℕ) → ℕ → List Status
  | [], buf => (if buf ≠ 0 then flushWrites e else []) ++ [Status.complete]
  | _ :: rest, buf =>
    if b ≤ buf + 1 then flushWrites e ++ ingestLoop b e rest 0
    else ingestLoop b e rest (buf + 1)

/-- Sequence of statuses written to `IngestState` while `run()` processes
one document (ingest/run.py lines 871-1056) when the store writes
themselves succeed: `discovered` after the first upserts, `parsed` after
checksum/statistics, `failed` when normalization leaves no words or
chunking raises, then the flush sequence and `complete`. -/
def processDoc (target overlap b : ℕ) (e : Bool) (words : List ℕ) :
    List Status :=
  [Status.discovered, Status.parsed] ++
    (if words = [] then [Status.failed]
     else
       match Chunking.chunk_words words target overlap with
       | none => [Status.failed]
       | some chunks => ingestLoop b e chunks 0)

/-- Rank of a status in the forward pipeline order claimed by the
specification. -/
def rank : Status → ℕ
  | .discovered => 0
  | .parsed => 1
  | .indexedBm25 => 2
  | .embedded => 3
  | .complete => 4
  | .failed => 5

/-- One step is admissible per the claim when it moves forward in the
pipeline order or moves sideways into `failed` from a non-terminal
status. -/
def ForwardStep (s t : Status) : Prop :=
  (t = Status.failed ∧ s ≠ Status.complete ∧ s ≠ Status.failed) ∨
    (s ≠ Status.failed ∧ t ≠ Status.failed ∧ rank s ≤ rank t)

instance : DecidableRel ForwardStep := fun s t =>
  inferInstanceAs (Decidable
    ((t = Status.failed ∧ s ≠ Status.complete ∧ s ≠ Status.failed) ∨
      (s ≠ Status.failed ∧ t ≠ Status.failed ∧ rank s ≤ rank t)))

/-- A status-write sequence satisfies the claimed invariant when every
adjacent pair of writes is an admissible step. -/
def ClaimedMonotone (l : List Status) : Prop := List.Chain' ForwardStep l

instance : DecidablePred ClaimedMonotone := fun l =>
  inferInstanceAs (Decidable (List.Chain' ForwardStep l))

end IngestRun

namespace StrOrder

/-- Lexicographic strict order on codepoint sequences, as Python compares
strings (`repo_rel < prev[1]`). -/
def lexLtB : List Char → List Char → Bool
  | [], [] => false
  | [], _ :: _ => true
  | _ :: _, [] => false
  | a :: as, b :: bs =>
    if a.toNat = b.toNat then lexLtB as bs else decide (a.toNat < b.toNat)

/-- Lexicographic order on codepoint sequences, the sort order of Python's
`sorted` over strings. -/
def lexLeB : List Char → List Char → Bool
  | [], _ => true
  | _ :: _, [] => false
  | a :: as, b :: bs =>
    if a.toNat = b.toNat then lexLeB as bs else decide (a.toNat < b.toNat)

/-- String wrapper of `lexLtB`. -/
def sLt (a b : String) : Bool := lexLtB a.data b.data

/-- String wrapper of `lexLeB`. -/
def sLe (a b : String) : Bool := lexLeB a.data b.data

/-- Totality of the lexicographic order. -/
def lexLeB_total : ∀ a b : List Char, lexLeB a b = true ∨ lexLeB b a = true
  | [], _ => Or.inl rfl
  | _ :: _, [] => Or.inr rfl
  | a :: as, b :: bs => by
    by_cases h : a.toNat = b.toNat
    · rcases lexLeB_total as bs with h' | h'
      · exact Or.inl (by simp [lexLeB, h, h'])
      · exact Or.inr (by simp [lexLeB, h.symm, h'])
    · rcases Nat.lt_or_ge a.toNat b.toNat with h' | h'
      · exact Or.inl (by simp [lexLeB, h, h'])
      · have hne : ¬ b.toNat = a.toNat := fun hc => h hc.symm
        have hlt : b.toNat < a.toNat := lt_of_le_of_ne h' hne
        exact Or.inr (by simp [lexLeB, hne, hlt])

/-- Transitivity of the lexicographic order. -/
def lexLeB_trans : ∀ a b c : List Char,
    lexLeB a b = true → lexLeB b c = true → lexLeB a c = true
  | [], _, _ => fun _ _ => rfl
  | _ :: _, [], _ => fun h _ => by simp [lexLeB] at h
  | _ :: _, _ :: _, [] => fun _ h => by simp [lexLeB] at h
  | a :: as, b :: bs, c :: cs => fun hab hbc => by
    by_cases h1 : a.toNat = b.toNat <;> by_cases h2 : b.toNat = c.toNat
    · simp only [lexLeB, h1, if_pos rfl] at hab
      simp only [lexLeB, h2, if_pos rfl] at hbc
      simp [lexLeB, h1.trans h2, lexLeB_trans as bs cs hab hbc]
    · simp only [lexLeB, if_neg h2] at hbc
      have hbc' : b.toNat < c.toNat := by simpa using hbc
      have hac : a.toNat < c.toNat := h1 ▸ hbc'
      simp [lexLeB, Nat.ne_of_lt hac, hac]
    · simp only [lexLeB, if_neg h1] at hab
      have hab' : a.toNat < b.toNat := by simpa using hab
      have hac : a.toNat < c.toNat := h2 ▸ hab'
      simp [lexLeB, Nat.ne_of_lt hac, hac]
    · simp only [lexLeB, if_neg h1] at hab
      simp only [lexLeB, if_neg h2] at hbc
      have hab' : a.toNat < b.toNat := by simpa using hab
      have hbc' : b.toNat < c.toNat := by simpa using hbc
      have hac : a.toNat < c.toNat := lt_trans hab' hbc'
      simp [lexLeB, Nat.ne_of_lt hac, hac]

/-- A strict comparison that fails yields the reverse ordering. -/
def lexLeB_of_not_lt : ∀ a b : List Char,
    lexLtB a b = false → lexLeB b a = true
  | [], [] => fun _ => rfl
  | [], _ :: _ => fun h => by simp [lexLtB] at h
  | _ :: _, [] => fun _ => rfl
  | a :: as, b :: bs => fun h => by
    by_cases h1 : a.toNat = b.toNat
    · simp only [lexLtB, h1, if_pos rfl] at h
      simp [lexLeB, h1.symm, lexLeB_of_not_lt as bs h]
    · simp only [lexLtB] at h
      rw [if_neg h1] at h
      have hba : b.toNat < a.toNat := by
        have : ¬ a.toNat < b.toNat := by simpa using h
        exact lt_of_le_of_ne (Nat.le_of_not_lt this) (fun hc => h1 hc.symm)
      simp [lexLeB, Nat.ne_of_lt hba, hba]

/-- Reflexivity of the lexicographic order. -/
def lexLeB_refl : ∀ a : List Char, lexLeB a a = true
  | [] => rfl
  | a :: as => by simp [lexLeB, lexLeB_refl as]

/-- A strict comparison that succeeds implies the weak one. -/
def lexLeB_of_lt : ∀ a b : List Char,
    lexLtB a b = true → lexLeB a b = true
  | [], [] => fun h => by simp [lexLtB] at h
  | [], _ :: _ => fun _ => rfl
  | _ :: _, [] => fun h => by simp [lexLtB] at h
  | a :: as, b :: bs => fun h => by
    by_cases h1 : a.toNat = b.toNat
    · simp only [lexLtB, h1, if_pos rfl] at h
      simp [lexLeB, h1, lexLeB_of_lt as bs h]
    · simp only [lexLtB] at h
      rw [if_neg h1] at h
      simp [lexLeB, h1, by simpa using h]

end StrOrder

namespace Discovery

/-- One resolved row of the metadata index: the author and work directory
components of the file's path under `data/`, the version file name, the
repository-relative path and the metadata status field. -/
structure Entry where
  authorDir : String
  workDir : String
  fileName : String
  relPath : String
  status : Option String
deriving DecidableEq

/-- ASCII lowercasing, modelling Python's `.lower()` on the identifiers and
markers involved (all ASCII). -/
def lowerStr (s : String) : String := ⟨s.data.map Char.toLower⟩

/-- Substring test `needle in haystack` of Python. -/
def strContains (needle : List Char) : List Char → Bool
  | [] => needle.isEmpty
  | c :: cs => needle.isPrefixOf (c :: cs) || strContains needle cs

/-- Test used by the runner for the primary marker token in a file name:
`"pri" in name.lower()`. -/
def containsPri (s : String) : Bool :=
  strContains ['p', 'r', 'i'] (lowerStr s).data

/-- Translation of `_pri_score` (ingest/run.py lines 313-319): +2 when the
metadata status equals `"pri"` case-insensitively, +1 when the file name
contains the `pri` token. -/
def priScore (e : Entry) : ℕ :=
  (if lowerStr (e.status.getD "") = "pri" then 2 else 0) +
    (if containsPri e.fileName then 1 else 0)

/-- Work key of an entry: the `(author_dir, work_dir)` pair
(`rel_parts[0], rel_parts[1]`). -/
def workKey (e : Entry) : String × String := (e.authorDir, e.workDir)

/-- Lookup in an association list keyed by work. -/
def lookupWork (sel : List ((String × String) × Entry)) (k : String × String) :
    Option Entry :=
  (sel.find? (fun p => p.1 = k)).map Prod.snd

/-- Replacement (or insertion) of the selected entry of a work. -/
def setWork (sel : List ((String × String) × Entry)) (k : String × String)
    (e : Entry) : List ((String × String) × Entry) :=
  if (sel.find? (fun p => p.1 = k)).isSome then
    sel.map (fun p => if p.1 = k then (k, e) else p)
  else sel ++ [(k, e)]

/-- Selection fold of `_discover_from_metadata_index` (ingest/run.py lines
345-367) in the primary-only configuration: entries scoring zero are
skipped; otherwise a work's entry is replaced when the new score is
strictly higher, or equal with a lexicographically smaller relative
path. -/
def selectStep (sel : List ((String × String) × Entry)) (e : Entry) :
    List ((String × String) × Entry) :=
  if priScore e = 0 then sel
  else
    match lookupWork sel (workKey e) with
    | none => setWork sel (workKey e) e
    | some prev =>
      if priScore prev < priScore e ∨
          (priScore e = priScore prev ∧
            StrOrder.sLt e.relPath prev.relPath = true) then
        setWork sel (workKey e) e
      else sel

/-- Per-work selection over the whole metadata index, in index order. -/
def selectByWork (entries : List Entry) : List ((String × String) × Entry) :=
  entries.foldl selectStep []

/-- One discovered document. -/
structure Discovered where
  authorId : String
  workId : String
  versionId : String
  repoPath : String
  isPri : Bool
deriving DecidableEq

/-- File-name stem (`Path(version_file).stem`): the name with the extension
after the final dot removed. -/
def stemOf (s : String) : String :=
  if s.data.contains '.' then
    ⟨((s.data.reverse.dropWhile (· ≠ '.')).drop 1).reverse⟩
  else s

/-- Identifier derivation `infer_ids_from_path` (ingest/run.py lines
270-295) together with the construction of a `DiscoveredText` row. -/
def mkDiscovered (e : Entry) : Discovered :=
  { authorId := e.authorDir
    workId := e.authorDir ++ "." ++ e.workDir
    versionId := e.authorDir ++ "." ++ e.workDir ++ "." ++ stemOf e.fileName
    repoPath := e.relPath
    isPri := containsPri e.fileName }

/-- Ascending order on selected entries by relative path, the key of
`sorted(selected_by_work.values(), key=lambda t: t[1])`. -/
def pathLe (a b : Entry) : Prop := StrOrder.sLe a.relPath b.relPath = true

instance : DecidableRel pathLe := fun a b =>
  inferInstanceAs (Decidable (StrOrder.sLe a.relPath b.relPath = true))

instance : IsTotal Entry pathLe :=
  ⟨fun a b => StrOrder.lexLeB_total a.relPath.data b.relPath.data⟩

instance : IsTrans Entry pathLe :=
  ⟨fun a b c h h' =>
    StrOrder.lexLeB_trans a.relPath.data b.relPath.data c.relPath.data h h'⟩

/-- Translation of `_discover_from_metadata_index` (ingest/run.py lines
334-393) in the default primary-only, Arabic configuration: per-work
selection, stable sort by relative path, truncation to the target count and
row construction.  Python's stable `sorted` is modelled by insertion
sort. -/
def discoverMeta (entries : List Entry) (target : ℕ) (langsHasAra : Bool) :
    List Discovered :=
  if entries = [] ∨ target = 0 then []
  else
    let selected := (selectByWork entries).map Prod.snd
    let files := (List.insertionSort pathLe selected).take target
    if langsHasAra then (files.map mkDiscovered).take target else []

/-- One file met by the filesystem walk (`iter_text_files` uses
`Path.rglob`, whose order is the directory-scan order, not a sorted
order): its work directory key, file name, relative path, and whether its
head looks like an OpenITI text (`looks_like_openiti_text` over readable
files). -/
structure WalkFile where
  authorDir : String
  workDir : String
  fileName : String
  relPath : String
  textLike : Bool
deriving DecidableEq

/-- Work key of a walked file. -/
def wkey (f : WalkFile) : String × String := (f.authorDir, f.workDir)

/-- Insert-if-absent for the `first_by_workdir` / `pri_by_workdir`
dictionaries (insertion order preserved). -/
def insertAbsent (m : List ((String × String) × WalkFile))
    (k : String × String) (f : WalkFile) :
    List ((String × String) × WalkFile) :=
  if (m.find? (fun p => p.1 = k)).isSome then m else m ++ [(k, f)]

/-- Walk fold of `discover_200_pri_arabic` (ingest/run.py lines 411-441) in
the primary-only configuration: per work, remember the first text-like file
seen and the first text-like file whose name contains `pri`; stop early
once `target` works have a `pri` file. -/
def scanWalk (target : ℕ) :
    List WalkFile → List ((String × String) × WalkFile) →
    List ((String × String) × WalkFile) →
    List ((String × String) × WalkFile) × List ((String × String) × WalkFile)
  | [], firstBy, priBy => (firstBy, priBy)
  | f :: rest, firstBy, priBy =>
    if ¬ f.textLike then scanWalk target rest firstBy priBy
    else
      let firstBy' := insertAbsent firstBy (wkey f) f
      if containsPri f.fileName ∧ (priBy.find? (fun p => p.1 = wkey f)).isNone then
        let priBy' := priBy ++ [(wkey f, f)]
        if target ≤ priBy'.length then (firstBy', priBy')
        else scanWalk target rest firstBy' priBy'
      else scanWalk target rest firstBy' priBy

/-- Fill of `pri_files` (ingest/run.py lines 443-451): when fewer than
`target` works have a `pri` file, append each remaining work's first-seen
file until the target is reached. -/
def fillFromFirst (target : ℕ) (priBy : List ((String × String) × WalkFile)) :
    List ((String × String) × WalkFile) → List WalkFile → List WalkFile
  | [], acc => acc
  | p :: rest, acc =>
    if (priBy.find? (fun q => q.1 = p.1)).isSome then
      fillFromFirst target priBy rest acc
    else
      let acc' := acc ++ [p.2]
      if target ≤ acc'.length then acc' else fillFromFirst target priBy rest acc'

/-- Row construction of the fallback branch (ingest/run.py lines 455-479);
in the primary-only configuration `is_pri` is always true. -/
def mkDiscoveredWalk (f : WalkFile) : Discovered :=
  { authorId := f.authorDir
    workId := f.authorDir ++ "." ++ f.workDir
    versionId := f.authorDir ++ "." ++ f.workDir ++ "." ++ stemOf f.fileName
    repoPath := f.relPath
    isPri := true }

/-- Translation of the filesystem-walk fallback of
`discover_200_pri_arabic` (ingest/run.py lines 411-481) in the default
primary-only, Arabic configuration, over the walk's encounter order. -/
def discoverWalk (files : List WalkFile) (target : ℕ) (langsHasAra : Bool) :
    List Discovered :=
  let (firstBy, priBy) := scanWalk target files [] []
  let priFiles := priBy.map Prod.snd
  let chosen :=
    if priFiles.length < target then fillFromFirst target priBy firstBy priFiles
    else priFiles
  if langsHasAra then (chosen.map mkDiscoveredWalk).take target else []

/-- Selection policy asserted by the claim for the fallback branch, worded
from the specification: score over file names only, highest score per work,
ties broken by lexicographically smallest relative path, result sorted by
path and truncated to the target count. -/
def claimedWalkScore (f : WalkFile) : ℕ := if containsPri f.fileName then 1 else 0

/-- Specification-worded selection for the walk: keep, per work, the best
text-like candidate. -/
def claimedWalkStep (sel : List ((String × String) × WalkFile)) (f : WalkFile) :
    List ((String × String) × WalkFile) :=
  if ¬ f.textLike then sel
  else
    match (sel.find? (fun p => p.1 = wkey f)).map Prod.snd with
    | none => sel ++ [(wkey f, f)]
    | some prev =>
      if claimedWalkScore prev < claimedWalkScore f ∨
          (claimedWalkScore f = claimedWalkScore prev ∧
            StrOrder.sLt f.relPath prev.relPath = true) then
        sel.map (fun p => if p.1 = wkey f then (wkey f, f) else p)
      else sel

/-- Ascending path order on walked files. -/
def wPathLe (a b : WalkFile) : Prop := StrOrder.sLe a.relPath b.relPath = true

instance : DecidableRel wPathLe := fun a b =>
  inferInstanceAs (Decidable (StrOrder.sLe a.relPath b.relPath = true))

instance : IsTotal WalkFile wPathLe :=
  ⟨fun a b => StrOrder.lexLeB_total a.relPath.data b.relPath.data⟩

instance : IsTrans WalkFile wPathLe :=
  ⟨fun a b c h h' =>
    StrOrder.lexLeB_trans a.relPath.data b.relPath.data c.relPath.data h h'⟩

/-- Modelled from the spec: the discovery policy the claim asserts for the
filesystem-walk fallback — per-work best score with smallest-path
tie-break, output sorted by path, truncated to the target count. -/
def claimedDiscoverWalk (files : List WalkFile) (target : ℕ) : List Discovered :=
  let selected := (files.foldl claimedWalkStep []).map Prod.snd
  ((List.insertionSort wPathLe selected).take target).map mkDiscoveredWalk

end Discovery

namespace SearchApi

/-- Concrete store oracles over trivial filters: the lexical store returns
one fixed hit and the vector store raises on every call. -/
def depsVectorDown : Deps Unit :=
  { maxQueryLen := 100
    rrfK := 60
    bm25 := fun _ _ _ _ _ =>
      { hits := [{ idField := "os1", srcChunkId := some "B1", score := 3,
                   src := "srcB1", highlight := some ["<b>h</b>"] }]
        total := 1, aggs := "aggs" }
    vectorSearch := fun _ _ _ _ => .error "connection refused"
    vectorCount := fun _ => .ok 0
    filterChunkIds := fun ids _ => ids
    fetchSources := fun _ _ => none
    encode := fun _ _ => [] }

/-- Concrete store oracles where the vector store returns one hit whose
identifier the lexical filter check rejects (the filter allows nothing)
while the lexical store returns no hits. -/
def depsFilterRejectsAll : Deps Unit :=
  { maxQueryLen := 100
    rrfK := 60
    bm25 := fun _ _ _ _ _ => { hits := [], total := 0, aggs := "aggs" }
    vectorSearch := fun _ _ _ _ =>
      .ok [{ chunkId := some "V1", score := 1, payload := "pV1" }]
    vectorCount := fun _ => .ok 1
    filterChunkIds := fun _ _ => []
    fetchSources := fun _ _ => none
    encode := fun _ _ => [] }

end SearchApi

/-- Helper for the C6 analysis: the chunk loop always writes a (possibly
empty) sequence of whole flush patterns followed by `complete`. -/
theorem ingestLoop_shape (b : ℕ) (e : Bool) :
    ∀ (chunks : List (ℕ × ℕ × List ℕ)) (buf : ℕ),
      ∃ F, IngestRun.ingestLoop b e chunks buf =
        (List.replicate F (IngestRun.flushWrites e)).flatten ++
          [IngestRun.Status.complete] := by
  intro chunks
  induction chunks with
  | nil =>
    intro buf
    by_cases h : buf = 0
    · exact ⟨0, by simp [IngestRun.ingestLoop, h]⟩
    · exact ⟨1, by simp [IngestRun.ingestLoop, h]⟩
  | cons c rest ih =>
    intro buf
    by_cases h : b ≤ buf + 1
    · obtain ⟨F, hF⟩ := ih 0
      exact ⟨F + 1, by
        simp [IngestRun.ingestLoop, h, hF, List.replicate_add,
          List.replicate_succ]⟩
    · obtain ⟨F, hF⟩ := ih (buf + 1)
      exact ⟨F, by simp [IngestRun.ingestLoop, h, hF]⟩

/-- C6 — the claim as stated fails: with batch size 1 and embeddings
enabled, a two-chunk document writes `indexed_bm25` again after `embedded`,
a move backwards in the claimed pipeline order. -/
theorem c6_status_goes_backwards_counterexample :
    IngestRun.processDoc 1 0 1 true [0, 1] =
      [.discovered, .parsed, .indexedBm25, .embedded, .indexedBm25,
        .embedded, .complete] ∧
    ¬ IngestRun.ClaimedMonotone (IngestRun.processDoc 1 0 1 true [0, 1]) := by
  have hval : IngestRun.processDoc 1 0 1 true [0, 1] =
      [.discovered, .parsed, .indexedBm25, .embedded, .indexedBm25,
        .embedded, .complete] := by decide
  refine ⟨hval, ?_⟩
  rw [IngestRun.ClaimedMonotone, hval]
  simp only [List.chain'_cons, List.chain'_singleton]
  decide

/-- C6 (amended) — per-document status writes follow the shape
`discovered, parsed` then either `failed`, or a sequence of flush patterns
(`indexed_bm25`, then `embedded` when embeddings are enabled — with the
`indexed_bm25` of each later flush written after the previous flush's
`embedded`) closed by `complete`; a rerun starts the sequence again at
`discovered`. -/
theorem c6_status_write_shape (target overlap b : ℕ) (e : Bool)
    (words : List ℕ) :
    ∃ tail,
      IngestRun.processDoc target overlap b e words =
        [IngestRun.Status.discovered, IngestRun.Status.parsed] ++ tail ∧
      (tail = [IngestRun.Status.failed] ∨
        ∃ F, tail = (List.replicate F (IngestRun.flushWrites e)).flatten ++
          [IngestRun.Status.complete]) := by
  by_cases hw : words = []
  · exact ⟨[IngestRun.Status.failed], by simp [IngestRun.processDoc, hw],
      Or.inl rfl⟩
  · by_cases ht : target = 0
    · exact ⟨[IngestRun.Status.failed],
        by simp [IngestRun.processDoc, hw, Chunking.chunk_words, ht],
        Or.inl rfl⟩
    · obtain ⟨F, hF⟩ := ingestLoop_shape b e
        (Chunking.chunkLoop words target
          (if overlap < target then target - overlap else target)
          words.length 0 0) 0
      refine ⟨_, ?_, Or.inr ⟨F, rfl⟩⟩
      simp [IngestRun.processDoc, hw, Chunking.chunk_words, ht, hF]

/-- C4 — the normalizer is not idempotent: alef maqsura (U+0649) is folded
to Arabic ya (U+064A) in one pass, and a second pass folds that ya to
Persian ya (U+06CC), so applying `normalize` twice differs from applying it
once; the character table maps U+0649 to a codepoint that the same table
itself rewrites. -/
theorem c4_normalize_not_idempotent :
    Norm.normalize [0x649] = [0x64A] ∧
    Norm.normalize (Norm.normalize [0x649]) = [0x6CC] ∧
    Norm.normalize (Norm.normalize [0x649]) ≠ Norm.normalize [0x649] := by
  decide

/-- C3 — the claim as stated fails: four tokens with target 4 and overlap 2
satisfy `N <= T`, so the claim predicts exactly one window, but the chunker
emits two (`[0,1,2,3]` and `[2,3]`), because its loop keeps starting
windows while the offset is below `N`. -/
theorem c3_chunk_count_counterexample :
    (0 < 4 ∧ 2 < 4) ∧
    (Chunking.chunk_words [0, 1, 2, 3] 4 2).map List.length = some 2 ∧
    Chunking.claimedChunkCount 4 4 2 = 1 := by decide

/-- Helper for C3: length of the chunk loop's output. -/
theorem chunkLoop_length (words : List ℕ) (target step : ℕ) (hstep : 0 < step) :
    ∀ fuel i idx, words.length - i ≤ fuel →
      (Chunking.chunkLoop words target step fuel i idx).length =
        (words.length - i + step - 1) / step := by
  intro fuel
  induction fuel with
  | zero =>
    intro i idx hf
    have h0 : words.length - i = 0 := Nat.le_zero.mp hf
    have hlt : step - 1 < step := by omega
    simp [Chunking.chunkLoop, h0, Nat.div_eq_of_lt hlt]
  | succ fuel ih =>
    intro i idx hf
    by_cases h : i < words.length
    · have hrec : words.length - (i + step) ≤ fuel := by omega
      have := ih (i + step) (idx + 1) hrec
      simp only [Chunking.chunkLoop, if_pos h, List.length_cons, this]
      have hm : 1 ≤ words.length - i := by omega
      set m := words.length - i with hmdef
      have hL : m + step - 1 = (m - 1) + step := by omega
      have hLdiv : (m + step - 1) / step = (m - 1) / step + 1 := by
        rw [hL, Nat.add_div_right _ hstep]
      by_cases hms : m ≤ step
      · have h1 : words.length - (i + step) = 0 := by omega
        have h2 : (0 + step - 1) / step = 0 := by
          rw [Nat.zero_add]; exact Nat.div_eq_of_lt (by omega)
        have h3 : (m - 1) / step = 0 := Nat.div_eq_of_lt (by omega)
        rw [h1, hLdiv, h3, h2]
      · have h1 : words.length - (i + step) = m - step := by omega
        have h2 : m - step + step - 1 = m - 1 := by omega
        rw [h1, h2, hLdiv]
    · have h0 : words.length - i = 0 := by omega
      have hlt : step - 1 < step := by omega
      simp [Chunking.chunkLoop, h, h0, Nat.div_eq_of_lt hlt]

/-- Helper for C3: the `k`-th emitted window starts at offset `k * step`
and carries chunk index `k` and the slice `words[k*step : k*step +
target]`. -/
theorem chunkLoop_get (words : List ℕ) (target step : ℕ) (hstep : 0 < step) :
    ∀ fuel i idx k, words.length - i ≤ fuel →
      (Chunking.chunkLoop words target step fuel i idx)[k]? =
        if i + k * step < words.length then
          some (idx + k, i + k * step,
            (words.drop (i + k * step)).take target)
        else none := by
  intro fuel
  induction fuel with
  | zero =>
    intro i idx k hf
    have h0 : ¬ i + k * step < words.length := by omega
    simp [Chunking.chunkLoop, h0]
  | succ fuel ih =>
    intro i idx k hf
    by_cases h : i < words.length
    · simp only [Chunking.chunkLoop, if_pos h]
      cases k with
      | zero => simp [h]
      | succ k =>
        have hrec : words.length - (i + step) ≤ fuel := by omega
        have := ih (i + step) (idx + 1) k hrec
        simp only [List.getElem?_cons_succ, this]
        have harith : i + step + k * step = i + (k + 1) * step := by
          rw [Nat.succ_mul]; omega
        have hidx : idx + 1 + k = idx + (k + 1) := by omega
        rw [harith, hidx]
    · have h0 : ¬ i + k * step < words.length := by omega
      simp [Chunking.chunkLoop, h, h0]

/-- Helper for C3: dropping the overlap from every window and flattening
recovers the suffix of the input starting `overlap` past the loop's current
offset. -/
theorem chunkLoop_flatten_drop (words : List ℕ) (target overlap : ℕ)
    (hov : overlap < target) :
    ∀ fuel i idx, words.length - i ≤ fuel →
      ((Chunking.chunkLoop words target (target - overlap) fuel i idx).map
        (fun e => e.2.2.drop overlap)).flatten =
        words.drop (i + overlap) := by
  intro fuel
  induction fuel with
  | zero =>
    intro i idx hf
    have h0 : words.length ≤ i + overlap := by omega
    simp [Chunking.chunkLoop, List.drop_eq_nil_of_le h0]
  | succ fuel ih =>
    intro i idx hf
    by_cases h : i < words.length
    · have hrec : words.length - (i + (target - overlap)) ≤ fuel := by omega
      have hflat := ih (i + (target - overlap)) (idx + 1) hrec
      simp only [Chunking.chunkLoop, if_pos h, List.map_cons,
        List.flatten_cons, hflat]
      have h1 : ((words.drop i).take target).drop overlap =
          ((words.drop i).drop overlap).take (target - overlap) :=
        List.drop_take target overlap (words.drop i)
      have h2 : (words.drop i).drop overlap = words.drop (i + overlap) :=
        List.drop_drop overlap i words
      have h3 : i + (target - overlap) + overlap =
          i + overlap + (target - overlap) := by omega
      have h4 : words.drop (i + overlap + (target - overlap)) =
          (words.drop (i + overlap)).drop (target - overlap) :=
        (List.drop_drop (target - overlap) (i + overlap) words).symm
      rw [h1, h2, h3, h4, List.take_append_drop]
    · have h0 : words.length ≤ i + overlap := by omega
      simp [Chunking.chunkLoop, h, List.drop_eq_nil_of_le h0]

/-- C3 (amended) — for `target > 0` and `overlap < target` the chunker
succeeds and emits exactly `ceil(N / (target - overlap))` windows (not
`ceil((N - target)/(target - overlap)) + 1`; the two agree only when the
overlap is zero, and a length-`N <= target` input can still produce several
windows); each window has at most `target` tokens, the `k`-th window starts
at `k * (target - overlap)` with chunk index `k`, and concatenating the
windows with each later window's `overlap`-token prefix removed
reconstructs the input. -/
theorem c3_chunker_amended (words : List ℕ) (target overlap : ℕ)
    (ht : 0 < target) (hov : overlap < target) :
    ∃ l, Chunking.chunk_words words target overlap = some l ∧
      l.length = (words.length + (target - overlap) - 1) / (target - overlap) ∧
      (∀ e ∈ l, e.2.2.length ≤ target) ∧
      (∀ k e, l[k]? = some e →
        e = (k, k * (target - overlap),
          (words.drop (k * (target - overlap))).take target)) ∧
      Chunking.recon overlap l = words := by
  have ht0 : target ≠ 0 := by omega
  have hstep : 0 < target - overlap := by omega
  refine ⟨Chunking.chunkLoop words target (target - overlap) words.length 0 0,
    ?_, ?_, ?_, ?_, ?_⟩
  · simp [Chunking.chunk_words, ht0, hov]
  · have := chunkLoop_length words target (target - overlap) hstep
      words.length 0 0 (by omega)
    simpa using this
  · intro e he
    obtain ⟨k, hk⟩ := List.mem_iff_getElem?.mp he
    have := chunkLoop_get words target (target - overlap) hstep
      words.length 0 0 k (by omega)
    rw [this] at hk
    by_cases hcase : 0 + k * (target - overlap) < words.length
    · rw [if_pos hcase] at hk
      have he' := (Option.some.injEq _ _).mp hk
      rw [← he']
      simp
    · rw [if_neg hcase] at hk
      exact absurd hk (by simp)
  · intro k e hk
    have := chunkLoop_get words target (target - overlap) hstep
      words.length 0 0 k (by omega)
    rw [this] at hk
    by_cases hcase : 0 + k * (target - overlap) < words.length
    · rw [if_pos hcase] at hk
      have he' := (Option.some.injEq _ _).mp hk
      rw [← he']
      simp
    · rw [if_neg hcase] at hk
      exact absurd hk (by simp)
  · cases hw : words with
    | nil => simp [hw, Chunking.chunkLoop, Chunking.recon]
    | cons w ws =>
      have hlen : words.length = ws.length + 1 := by rw [hw]; rfl
      rw [← hw]
      rw [hlen]
      have hpos : 0 < words.length := by omega
      simp only [Chunking.chunkLoop, if_pos hpos]
      have hflat := chunkLoop_flatten_drop words target overlap hov
        ws.length (0 + (target - overlap)) 1 (by omega)
      simp only [Chunking.recon, hflat]
      have h4 : 0 + (target - overlap) + overlap = target := by omega
      rw [h4]
      simp

/-- Witness for the amended C3 statement: five tokens, target 3, overlap 1
give three windows whose overlap-stripped concatenation is the input. -/
theorem c3_chunker_amended_witness :
    (0 < 3 ∧ 1 < 3) ∧
    ∃ l, Chunking.chunk_words [10, 20, 30, 40, 50] 3 1 = some l ∧
      l.length = 3 ∧ Chunking.recon 1 l = [10, 20, 30, 40, 50] := by
  refine ⟨⟨by decide, by decide⟩, ?_⟩
  obtain ⟨l, h1, h2, _, _, h5⟩ :=
    c3_chunker_amended [10, 20, 30, 40, 50] 3 1 (by decide) (by decide)
  exact ⟨l, h1, by rw [h2]; rfl, h5⟩

/-- C5 — the claim as stated fails: the ingest runner hands chunk texts to
the embedding model verbatim, so the encoded batch differs from the
passage-role encoding of the same texts produced by the embedding
service. -/
theorem c5_ingest_texts_not_passage_tagged :
    Embeddings.embedAndUpsertTexts [("v::0", [97, 98, 99], 0)] =
      [[97, 98, 99]] ∧
    Embeddings.encode_texts [[97, 98, 99]] "passage" =
      [Embeddings.passageMarker ++ [97, 98, 99]] ∧
    Embeddings.embedAndUpsertTexts [("v::0", [97, 98, 99], 0)] ≠
      Embeddings.encode_texts [[97, 98, 99]] "passage" := by decide

/-- C5 (amended) — query texts are encoded with the query-role marker at
search time, the embedding service applies the passage-role marker to every
non-query role, but the ingest runner's vector batches carry the chunk
texts with no role marker at all. -/
theorem c5_role_tagging_amended :
    (∀ q, Embeddings.searchPreparedQuery q =
      Embeddings.queryMarker ++ Norm.normalize q) ∧
    (∀ texts role, role ≠ "query" →
      Embeddings.encode_texts texts role =
        texts.map (fun t => Embeddings.passageMarker ++ Norm.normalize t)) ∧
    (∀ chunks, Embeddings.embedAndUpsertTexts chunks =
      chunks.map (fun c => c.2.1)) := by
  refine ⟨fun q => rfl, fun texts role hr => ?_, fun chunks => rfl⟩
  simp [Embeddings.encode_texts, Embeddings.prefixed_text, hr]

/-- Witness for the amended C5 statement at concrete inputs. -/
theorem c5_role_tagging_amended_witness :
    Embeddings.searchPreparedQuery [97] =
      Embeddings.queryMarker ++ Norm.normalize [97] ∧
    (("passage" : String) ≠ "query" ∧
      Embeddings.encode_texts [[97]] "passage" =
        [Embeddings.passageMarker ++ Norm.normalize [97]]) ∧
    Embeddings.embedAndUpsertTexts [("v::0", [97], 0)] = [[97]] := by
  refine ⟨c5_role_tagging_amended.1 [97], ⟨by decide, ?_⟩,
    c5_role_tagging_amended.2.2 [("v::0", [97], 0)]⟩
  rw [c5_role_tagging_amended.2.1 [[97]] "passage" (by decide)]
  rfl

/-- C10 — the claim as stated fails: a single short text with the unknown
role tag `"foo"` is rejected by the request model's pattern validation even
though the batch is non-empty, within the batch bound and within the length
bound. -/
theorem c10_unknown_role_rejected_counterexample :
    Embeddings.embedEndpoint 32 256 [[97]] "foo" =
      .error .invalidInputType ∧
    ([[97]] : List (List ℕ)) ≠ [] ∧
    ([[97]] : List (List ℕ)).length ≤ 32 ∧
    (∀ t ∈ ([[97]] : List (List ℕ)), t.length ≤ 256) := by
  exact ⟨rfl, by decide, by decide, by decide⟩

/-- C10 (amended) — `encode_texts` itself accepts any role string and
treats every role other than `"query"` as passage, but the `/embed`
operation validates the role tag against `query|passage` at the
request-model boundary, so it rejects unknown role tags in addition to
empty batches, oversized batches and over-length texts. -/
theorem c10_embed_validation_amended :
    (∀ texts role, role ≠ "query" →
      Embeddings.encode_texts texts role =
        texts.map (fun t => Embeddings.passageMarker ++ Norm.normalize t)) ∧
    (∀ maxB maxL texts role,
      (∃ out, Embeddings.embedEndpoint maxB maxL texts role = .ok out) ↔
        (Embeddings.validEmbedInputType role = true ∧ texts ≠ [] ∧
          texts.length ≤ maxB ∧ ∀ t ∈ texts, t.length ≤ maxL)) := by
  constructor
  · intro texts role hr
    simp [Embeddings.encode_texts, Embeddings.prefixed_text, hr]
  · intro maxB maxL texts role
    constructor
    · rintro ⟨out, hout⟩
      by_cases hv : Embeddings.validEmbedInputType role
      · by_cases he : texts.isEmpty
        · simp [Embeddings.embedEndpoint, hv, he] at hout
        · by_cases hb : maxB < texts.length
          · simp [Embeddings.embedEndpoint, hv, he, hb] at hout
          · by_cases hl : texts.any (fun t => maxL < t.length)
            · simp [Embeddings.embedEndpoint, hv, he, hb, hl] at hout
            · refine ⟨hv, by simpa using he, le_of_not_lt hb, ?_⟩
              intro t ht
              by_contra hc
              exact hl (List.any_eq_true.mpr ⟨t, ht, by simpa using hc⟩)
      · simp [Embeddings.embedEndpoint, hv] at hout
    · rintro ⟨hv, he, hb, hl⟩
      refine ⟨Embeddings.encode_texts texts role, ?_⟩
      have he' : texts.isEmpty = false := by simpa using he
      have hb' : ¬ maxB < texts.length := not_lt.mpr hb
      have hl' : texts.any (fun t => maxL < t.length) = false := by
        simp only [List.any_eq_false]
        intro t ht
        simpa using hl t ht
      simp [Embeddings.embedEndpoint, hv, he', hb', hl']

/-- C1 — hybrid degradation: whenever the vector-store search call raises,
hybrid mode returns the direct lexical-only query at the requested page and
size with the same filters; the effective mode is the lexical mode,
distinct from the requested hybrid mode, and the warnings carry the
machine-readable fallback code. -/
theorem c1_hybrid_degradation {φ : Type} (deps : SearchApi.Deps φ)
    (q : String) (size page : ℕ) (filters : φ) (e : String)
    (hq : q.length ≤ deps.maxQueryLen)
    (hvec : deps.vectorSearch (deps.encode q "query")
      (SearchApi.candidateK page size) 0 filters = .error e) :
    ∃ resp bresp,
      SearchApi.search deps q .hybrid size page filters = .ok resp ∧
      SearchApi.search deps q .bm25 size page filters = .ok bresp ∧
      resp.requestedMode = .hybrid ∧
      resp.effectiveMode = .bm25 ∧
      resp.effectiveMode ≠ resp.requestedMode ∧
      resp.warnings = ["qdrant_unavailable_fallback_bm25"] ∧
      resp.results = bresp.results ∧
      resp.total = bresp.total ∧
      resp.facets = bresp.facets := by
  have hq' : ¬ deps.maxQueryLen < q.length := not_lt.mpr hq
  have hh : SearchApi.search deps q .hybrid size page filters =
      .ok
        { query := q, requestedMode := .hybrid, effectiveMode := .bm25
          warnings := ["qdrant_unavailable_fallback_bm25"]
          total := (deps.bm25 q size ((page - 1) * size) filters true).total
          page := page, size := size
          results := (deps.bm25 q size ((page - 1) * size) filters
            true).hits.map SearchApi.osHitToSearchHit
          facets := some (deps.bm25 q size ((page - 1) * size) filters
            true).aggs } := by
    simp only [SearchApi.search, if_neg hq', hvec]
  have hb : SearchApi.search deps q .bm25 size page filters =
      .ok
        { query := q, requestedMode := .bm25, effectiveMode := .bm25
          warnings := []
          total := (deps.bm25 q size ((page - 1) * size) filters true).total
          page := page, size := size
          results := (deps.bm25 q size ((page - 1) * size) filters
            true).hits.map SearchApi.osHitToSearchHit
          facets := some (deps.bm25 q size ((page - 1) * size) filters
            true).aggs } := by
    simp only [SearchApi.search, if_neg hq']
  exact ⟨_, _, hh, hb, rfl, rfl,
    fun hcontra => SearchApi.Mode.noConfusion hcontra, rfl, rfl, rfl, rfl⟩

/-- Witness for C1 at concrete oracles whose vector store raises. -/
theorem c1_hybrid_degradation_witness :
    ("abc".length ≤ SearchApi.depsVectorDown.maxQueryLen) ∧
    (∃ resp bresp,
      SearchApi.search SearchApi.depsVectorDown "abc" .hybrid 10 1 () =
        .ok resp ∧
      SearchApi.search SearchApi.depsVectorDown "abc" .bm25 10 1 () =
        .ok bresp ∧
      resp.requestedMode = .hybrid ∧
      resp.effectiveMode = .bm25 ∧
      resp.effectiveMode ≠ resp.requestedMode ∧
      resp.warnings = ["qdrant_unavailable_fallback_bm25"] ∧
      resp.results = bresp.results ∧
      resp.total = bresp.total ∧
      resp.facets = bresp.facets) :=
  ⟨by decide,
    c1_hybrid_degradation SearchApi.depsVectorDown "abc" 10 1 ()
      "connection refused" (by decide) rfl⟩

/-- Helper for C8: a successful `TAG_RE` match consumes at least one
character. -/
theorem matchTag_length :
    ∀ (cs : List Char) (b : Bool) (n rest : List Char),
      Sanitize.matchTag cs = some (b, n, rest) → rest.length < cs.length := by
  intro cs b n rest h
  match cs with
  | [] => simp [Sanitize.matchTag] at h
  | c0 :: cs1 =>
    simp only [Sanitize.matchTag] at h
    have hcs2 : (if (decide (cs1.head? = some '/')) = true then cs1.tail
        else cs1).length ≤ cs1.length := by
      split <;> simp [List.length_tail]
    generalize hgen : (if (decide (cs1.head? = some '/')) = true then cs1.tail
        else cs1) = cs2 at h hcs2
    split at h
    · split at h
      · simp at h
      · split at h
        · simp at h
        · rename_i d ds heq
          split at h
          · rw [Option.some.injEq] at h
            have hrest : ds = rest := by
              have := congrArg (fun p => p.2.2) h
              simpa using this
            have hlen := congrArg List.length heq
            simp [List.length_drop] at hlen
            simp [← hrest]
            omega
          · split at h
            · split at h
              · simp at h
              · rename_i e es heq2
                split at h
                · rw [Option.some.injEq] at h
                  have hrest : es = rest := by
                    have := congrArg (fun p => p.2.2) h
                    simpa using this
                  have hlen := congrArg List.length heq
                  have hlen2 := congrArg List.length heq2
                  simp [List.length_drop] at hlen hlen2
                  simp [← hrest]
                  omega
                · simp at h
            · simp at h
    · simp at h


/-- Helper for C8: whitespace characters are never alphanumeric, so a tag
name cannot extend into the attribute section. -/
theorem pySpace_not_alphanum (c : Char)
    (h : Sanitize.isPySpaceChar c = true) : c.isAlphanum = false := by
  simp [Sanitize.isPySpaceChar, Norm.isPySpace, Char.toNat] at h
  simp only [Char.isAlphanum, Char.isAlpha, Char.isDigit, Char.isUpper,
    Char.isLower, Bool.or_eq_false_iff, Bool.and_eq_false_iff,
    decide_eq_false_iff_not, not_le, Char.le_def, UInt32.le_def,
    BitVec.le_def]
  have hconv : c.val.toBitVec.toNat = c.val.toNat := rfl
  have e1 : ((48 : UInt32)).toBitVec.toNat = 48 := rfl
  have e2 : ((57 : UInt32)).toBitVec.toNat = 57 := rfl
  have e3 : ((65 : UInt32)).toBitVec.toNat = 65 := rfl
  have e4 : ((90 : UInt32)).toBitVec.toNat = 90 := rfl
  have e5 : ((97 : UInt32)).toBitVec.toNat = 97 := rfl
  have e6 : ((122 : UInt32)).toBitVec.toNat = 122 := rfl
  rw [hconv, e1, e2, e3, e4, e5, e6]
  omega

/-- Helper for C8: the sanitizer pass is insensitive to extra fuel. -/
theorem sanitizeFuel_congr :
    ∀ (f : ℕ) (cs : List Char), cs.length ≤ f →
      Sanitize.sanitizeFuel f cs = Sanitize.sanitizeFuel cs.length cs := by
  intro f
  induction f using Nat.strong_induction_on with
  | _ f IH =>
    intro cs hlen
    cases cs with
    | nil => cases f <;> rfl
    | cons c cs' =>
      cases f with
      | zero => simp at hlen
      | succ f' =>
        have hlen' : cs'.length ≤ f' := by simp at hlen; omega
        by_cases hc : c = '<'
        · cases hm : Sanitize.matchTag (c :: cs') with
          | none =>
            simp only [Sanitize.sanitizeFuel, if_pos hc, hm, List.length_cons]
            congr 1
            exact IH f' (Nat.lt_succ_self f') cs' hlen'
          | some trip =>
            obtain ⟨b, nm, rest⟩ := trip
            have hrl := matchTag_length (c :: cs') b nm rest hm
            have hrl' : rest.length ≤ cs'.length := by simp at hrl; omega
            simp only [Sanitize.sanitizeFuel, if_pos hc, hm, List.length_cons]
            congr 1
            rw [IH f' (Nat.lt_succ_self f') rest (le_trans hrl' hlen'),
              IH cs'.length (by omega) rest hrl']
        · simp only [Sanitize.sanitizeFuel, if_neg hc, List.length_cons]
          congr 1
          exact IH f' (Nat.lt_succ_self f') cs' hlen'

/-- Helper for C8: `takeWhile` runs through a block that satisfies the
predicate. -/
theorem takeWhile_append_all {p : Char → Bool} :
    ∀ (xs z : List Char), (∀ x ∈ xs, p x = true) →
      (xs ++ z).takeWhile p = xs ++ z.takeWhile p := by
  intro xs
  induction xs with
  | nil => intro z _; rfl
  | cons x xs ih =>
    intro z hall
    have hx : p x = true := hall x (List.mem_cons_self x xs)
    simp only [List.cons_append, List.takeWhile_cons_of_pos hx]
    rw [ih z (fun y hy => hall y (List.mem_cons_of_mem x hy))]

/-- Helper for C8: attribute characters are consumed up to the closing
`>`. -/
theorem takeWhile_ne_gt :
    ∀ (as r' : List Char), '>' ∉ as →
      (as ++ '>' :: r').takeWhile (· ≠ '>') = as := by
  intro as r' hn
  have h1 : (as ++ '>' :: r').takeWhile (· ≠ '>') =
      as ++ ('>' :: r').takeWhile (· ≠ '>') := by
    apply takeWhile_append_all
    intro x hx
    simp only [decide_eq_true_eq]
    exact fun hc => hn (hc ▸ hx)
  rw [h1]
  simp

/-- Helper for C8: variant of the attribute-consumption lemma in simp
normal form. -/
theorem takeWhile_bne_gt :
    ∀ (as r' : List Char), '>' ∉ as →
      (as ++ '>' :: r').takeWhile (fun x => !decide (x = '>')) = as := by
  intro as r' hn
  have h1 : (as ++ '>' :: r').takeWhile (fun x => !decide (x = '>')) =
      as ++ ('>' :: r').takeWhile (fun x => !decide (x = '>')) := by
    apply takeWhile_append_all
    intro x hx
    simp only [Bool.not_eq_true', decide_eq_false_iff_not]
    exact fun hc => hn (hc ▸ hx)
  rw [h1]
  simp

/-- Helper for C8: `TAG_RE` matches a rendered well-formed tag exactly,
reporting its closing flag and name and resuming after the tag. -/
theorem matchTag_render (b : Bool) (name attrs : List Char)
    (hw : Sanitize.WfItem (.tag b name attrs)) (r : List Char) :
    Sanitize.matchTag (Sanitize.renderItem (.tag b name attrs) ++ r) =
      some (b, name, r) := by
  obtain ⟨hne, halnum, hattrs⟩ := hw
  -- the part of the input after the optional '/' marker
  have hcore : ∀ (z : List Char),
      (z = attrs ++ '>' :: r) →
      ((name ++ z).takeWhile Char.isAlphanum = name ∧
        (name ++ z).drop name.length = z) := by
    intro z hz
    constructor
    · rw [takeWhile_append_all name z halnum]
      cases hattrs with
      | inl ha =>
        subst ha hz
        simp only [List.nil_append]
        rw [List.takeWhile_cons_of_neg]
        · simp
        · decide
      | inr ha =>
        obtain ⟨⟨c, cs, hceq, hsp⟩, _⟩ := ha
        subst hz
        rw [hceq]
        simp only [List.cons_append]
        rw [List.takeWhile_cons_of_neg]
        · simp
        · simp [pySpace_not_alphanum c hsp]
    · exact List.drop_left name z
  have hemp : name.isEmpty = false := by simp [hne]
  cases b with
  | true =>
    have hshape : Sanitize.renderItem (.tag true name attrs) ++ r =
        '<' :: '/' :: (name ++ (attrs ++ '>' :: r)) := by
      simp [Sanitize.renderItem]
    rw [hshape]
    cases hattrs with
    | inl ha =>
      subst ha
      obtain ⟨htw, hdrop⟩ := hcore ('>' :: r) (by simp)
      simp [Sanitize.matchTag, htw, hdrop, hemp]
    | inr ha =>
      obtain ⟨⟨c, cs, hceq, hsp⟩, hgt⟩ := ha
      subst hceq
      have hcgt : c ≠ '>' := fun hcc => hgt (hcc ▸ List.mem_cons_self c cs)
      have hcsgt : '>' ∉ cs := fun hcc => hgt (List.mem_cons_of_mem c hcc)
      obtain ⟨htw, hdrop⟩ := hcore (c :: (cs ++ '>' :: r)) (by simp)
      simp [Sanitize.matchTag, htw, hdrop, hemp, hcgt, hsp]
      rw [takeWhile_bne_gt cs r hcsgt, List.drop_left cs ('>' :: r)]
      simp
  | false =>
    have hn0 : ∀ x ∈ name, x ≠ '/' := by
      intro x hx hcc
      have := halnum x hx
      rw [hcc] at this
      exact absurd this (by decide)
    obtain ⟨n0, nrest, hname⟩ : ∃ n0 nrest, name = n0 :: nrest := by
      cases name with
      | nil => exact absurd rfl hne
      | cons a l => exact ⟨a, l, rfl⟩
    have hn0ne : n0 ≠ '/' := hn0 n0 (hname ▸ List.mem_cons_self n0 nrest)
    have hshape : Sanitize.renderItem (.tag false name attrs) ++ r =
        '<' :: (name ++ (attrs ++ '>' :: r)) := by
      simp [Sanitize.renderItem]
    rw [hshape]
    subst hname
    cases hattrs with
    | inl ha =>
      subst ha
      obtain ⟨htw, hdrop⟩ := hcore ('>' :: r) (by simp)
      simp only [List.cons_append] at htw hdrop
      simp [Sanitize.matchTag, htw, hdrop, hn0ne,
        halnum n0 (List.mem_cons_self n0 nrest)]
    | inr ha =>
      obtain ⟨⟨c, cs, hceq, hsp⟩, hgt⟩ := ha
      subst hceq
      have hcgt : c ≠ '>' := fun hcc => hgt (hcc ▸ List.mem_cons_self c cs)
      have hcsgt : '>' ∉ cs := fun hcc => hgt (List.mem_cons_of_mem c hcc)
      obtain ⟨htw, hdrop⟩ := hcore (c :: (cs ++ '>' :: r)) (by simp)
      simp only [List.cons_append] at htw hdrop
      simp [Sanitize.matchTag, htw, hdrop, hn0ne, hcgt, hsp,
        halnum n0 (List.mem_cons_self n0 nrest)]
      rw [takeWhile_bne_gt cs r hcsgt, List.drop_left cs ('>' :: r)]
      simp

/-- Helper for C8: text that contains no `<` passes through the sanitizer
unchanged. -/
theorem sanitize_text_passthrough :
    ∀ (s r : List Char), '<' ∉ s →
      Sanitize.sanitizeChars (s ++ r) = s ++ Sanitize.sanitizeChars r := by
  intro s
  induction s with
  | nil => intro r _; rfl
  | cons c s' ih =>
    intro r hni
    have hc : c ≠ '<' := fun hcc => hni (hcc ▸ List.mem_cons_self c s')
    have hni' : '<' ∉ s' := fun hm => hni (List.mem_cons_of_mem c hm)
    show Sanitize.sanitizeFuel ((c :: (s' ++ r)).length) (c :: (s' ++ r)) = _
    simp only [List.length_cons, Sanitize.sanitizeFuel, if_neg hc]
    rw [show (s' ++ r).length = (s' ++ r).length from rfl]
    have := ih r hni'
    rw [Sanitize.sanitizeChars] at this
    rw [this]
    simp

/-- Helper for C8: a rendered well-formed tag at the head of the input is
rewritten to its sanitized form and scanning resumes after it. -/
theorem sanitize_tag_step (b : Bool) (nm attrs : List Char)
    (hw : Sanitize.WfItem (.tag b nm attrs)) (r : List Char) :
    Sanitize.sanitizeChars (Sanitize.renderItem (.tag b nm attrs) ++ r) =
      Sanitize.sanitizeItem (.tag b nm attrs) ++ Sanitize.sanitizeChars r := by
  have hm := matchTag_render b nm attrs hw r
  have hshape : ∃ t, Sanitize.renderItem (.tag b nm attrs) ++ r = '<' :: t ∧
      t.length = (Sanitize.renderItem (.tag b nm attrs)).length - 1 + r.length := by
    refine ⟨((if b then ['/'] else []) ++ nm ++ attrs ++ ['>']) ++ r, ?_, ?_⟩
    · simp [Sanitize.renderItem]
    · simp [Sanitize.renderItem]
      omega
  obtain ⟨t, ht, htlen⟩ := hshape
  rw [ht] at hm ⊢
  rw [Sanitize.sanitizeChars]
  simp only [List.length_cons, Sanitize.sanitizeFuel, if_pos rfl, hm]
  have hlenr : r.length ≤ t.length := by
    have h1 : 1 ≤ (Sanitize.renderItem (.tag b nm attrs)).length := by
      simp [Sanitize.renderItem]
    omega
  rw [sanitizeFuel_congr t.length r hlenr]
  rfl

/-- Helper for C8: the sanitizer maps every decomposition item
independently — text kept, emphasis tags canonicalized, other tags
deleted. -/
theorem sanitize_render :
    ∀ (items : List Sanitize.Item), (∀ it ∈ items, Sanitize.WfItem it) →
      Sanitize.sanitizeChars (Sanitize.renderItems items) =
        (items.map Sanitize.sanitizeItem).flatten := by
  intro items
  induction items with
  | nil => intro _; rfl
  | cons it rest ih =>
    intro hw
    have hit := hw it (List.mem_cons_self it rest)
    have hrest := fun x hx => hw x (List.mem_cons_of_mem it hx)
    have hren : Sanitize.renderItems (it :: rest) =
        Sanitize.renderItem it ++ Sanitize.renderItems rest := by
      simp [Sanitize.renderItems]
    rw [hren]
    cases it with
    | text s =>
      rw [show Sanitize.renderItem (.text s) = s from rfl,
        sanitize_text_passthrough s _ hit, ih hrest]
      simp [Sanitize.sanitizeItem]
    | tag b nm attrs =>
      rw [sanitize_tag_step b nm attrs hit _, ih hrest]
      simp

/-- Helper for C7: the selection fold of the metadata branch maintains —
over the processed prefix — that every selected pair carries a
positive-scoring entry of its work that beats every positive-scoring
same-work entry (strictly higher score, or equal score and
lexicographically smallest relative path), that every positive-scoring
processed entry has a selected pair for its work, and that selected work
keys are unique. -/
theorem selectStep_foldl_inv :
    ∀ (todo seen : List Discovery.Entry)
      (sel : List ((String × String) × Discovery.Entry)),
      (∀ p ∈ sel, p.2 ∈ seen ∧ p.1 = Discovery.workKey p.2 ∧
        0 < Discovery.priScore p.2 ∧
        ∀ e' ∈ seen, Discovery.workKey e' = p.1 →
          0 < Discovery.priScore e' →
          (Discovery.priScore e' < Discovery.priScore p.2 ∨
            (Discovery.priScore e' = Discovery.priScore p.2 ∧
              StrOrder.sLe p.2.relPath e'.relPath = true))) →
      (∀ e' ∈ seen, 0 < Discovery.priScore e' →
        ∃ p ∈ sel, p.1 = Discovery.workKey e') →
      List.Pairwise (fun p q => p.1 ≠ q.1) sel →
      ((∀ p ∈ todo.foldl Discovery.selectStep sel,
        p.2 ∈ seen ++ todo ∧ p.1 = Discovery.workKey p.2 ∧
        0 < Discovery.priScore p.2 ∧
        ∀ e' ∈ seen ++ todo, Discovery.workKey e' = p.1 →
          0 < Discovery.priScore e' →
          (Discovery.priScore e' < Discovery.priScore p.2 ∨
            (Discovery.priScore e' = Discovery.priScore p.2 ∧
              StrOrder.sLe p.2.relPath e'.relPath = true))) ∧
      (∀ e' ∈ seen ++ todo, 0 < Discovery.priScore e' →
        ∃ p ∈ todo.foldl Discovery.selectStep sel,
          p.1 = Discovery.workKey e') ∧
      List.Pairwise (fun p q => p.1 ≠ q.1)
        (todo.foldl Discovery.selectStep sel)) := by
  intro todo
  induction todo with
  | nil =>
    intro seen sel h1 h2 h3
    simp only [List.foldl_nil, List.append_nil]
    exact ⟨h1, h2, h3⟩
  | cons e rest ih =>
    intro seen sel h1 h2 h3
    rw [List.foldl_cons, List.append_cons]
    by_cases hz : Discovery.priScore e = 0
    · have hsw : Discovery.selectStep sel e = sel := by
        simp [Discovery.selectStep, hz]
      rw [hsw]
      apply ih (seen ++ [e]) sel ?_ ?_ h3
      · intro p hp
        obtain ⟨hmem, hkey, hpos, hopt⟩ := h1 p hp
        refine ⟨List.mem_append_left _ hmem, hkey, hpos, ?_⟩
        intro e' he' hk' hpos'
        rcases List.mem_append.mp he' with he'' | he''
        · exact hopt e' he'' hk' hpos'
        · rw [List.mem_singleton.mp he''] at hpos'
          omega
      · intro e' he' hpos'
        rcases List.mem_append.mp he' with he'' | he''
        · exact h2 e' he'' hpos'
        · rw [List.mem_singleton.mp he''] at hpos'
          omega
    · have hzpos : 0 < Discovery.priScore e := by omega
      cases hlk : Discovery.lookupWork sel (Discovery.workKey e) with
      | none =>
        have hfind : sel.find?
            (fun p => p.1 = Discovery.workKey e) = none := by
          have := hlk
          rw [Discovery.lookupWork] at this
          exact Option.map_eq_none.mp this
        have hnone : ∀ p ∈ sel, p.1 ≠ Discovery.workKey e := by
          intro p hp
          have := List.find?_eq_none.mp hfind p hp
          simpa using this
        have hsw : Discovery.selectStep sel e =
            sel ++ [(Discovery.workKey e, e)] := by
          simp [Discovery.selectStep, hz, hlk, Discovery.setWork, hfind]
        rw [hsw]
        apply ih (seen ++ [e]) _ ?_ ?_ ?_
        · intro p hp
          rcases List.mem_append.mp hp with hp' | hp'
          · obtain ⟨hmem, hkey, hpos, hopt⟩ := h1 p hp'
            refine ⟨List.mem_append_left _ hmem, hkey, hpos, ?_⟩
            intro e' he' hk' hpos'
            rcases List.mem_append.mp he' with he'' | he''
            · exact hopt e' he'' hk' hpos'
            · rw [List.mem_singleton.mp he''] at hk'
              exact absurd hk'.symm (hnone p hp')
          · rw [List.mem_singleton.mp hp']
            refine ⟨List.mem_append_right _ (List.mem_singleton.mpr rfl),
              rfl, hzpos, ?_⟩
            intro e' he' hk' hpos'
            rcases List.mem_append.mp he' with he'' | he''
            · obtain ⟨q, hq, hqk⟩ := h2 e' he'' hpos'
              rw [hk'] at hqk
              exact absurd hqk (hnone q hq)
            · rw [List.mem_singleton.mp he'']
              exact Or.inr ⟨rfl, StrOrder.lexLeB_refl e.relPath.data⟩
        · intro e' he' hpos'
          rcases List.mem_append.mp he' with he'' | he''
          · obtain ⟨q, hq, hqk⟩ := h2 e' he'' hpos'
            exact ⟨q, List.mem_append_left _ hq, hqk⟩
          · rw [List.mem_singleton.mp he'']
            exact ⟨(Discovery.workKey e, e),
              List.mem_append_right _ (List.mem_singleton.mpr rfl), rfl⟩
        · rw [List.pairwise_append]
          exact ⟨h3, List.pairwise_singleton _ _,
            fun p hp q hq => by
              rw [List.mem_singleton.mp hq]
              exact hnone p hp⟩
      | some prev =>
        have hfind : ∃ p0, sel.find?
            (fun p => p.1 = Discovery.workKey e) = some p0 ∧ p0.2 = prev := by
          have := hlk
          rw [Discovery.lookupWork] at this
          obtain ⟨p0, hp0, hp0v⟩ := Option.map_eq_some'.mp this
          exact ⟨p0, hp0, hp0v⟩
        obtain ⟨p0, hp0find, hp0v⟩ := hfind
        have hp0mem : p0 ∈ sel := List.mem_of_find?_eq_some hp0find
        have hp0key : p0.1 = Discovery.workKey e := by
          have := List.find?_some hp0find
          simpa using this
        have hkeyuniq : ∀ p ∈ sel, p.1 = Discovery.workKey e → p.2 = prev := by
          intro p hp hpk
          by_cases hpeq : p = p0
          · rw [hpeq, hp0v]
          · have hsym : Symmetric
                (fun p q : (String × String) × Discovery.Entry =>
                  p.1 ≠ q.1) := fun _ _ hab heq => hab heq.symm
            have := (List.Pairwise.forall hsym h3) hp hp0mem hpeq
            rw [hpk, hp0key] at this
            exact absurd rfl this
        obtain ⟨hprevmem, hprevkey, hprevpos, hprevopt⟩ := h1 p0 hp0mem
        rw [hp0v] at hprevmem hprevpos
        rw [hp0key] at hprevkey
        rw [hp0key, hp0v] at hprevopt
        by_cases hcond : Discovery.priScore prev < Discovery.priScore e ∨
            (Discovery.priScore e = Discovery.priScore prev ∧
              StrOrder.sLt e.relPath prev.relPath = true)
        · have hsw : Discovery.selectStep sel e =
              sel.map (fun p => if p.1 = Discovery.workKey e then
                (Discovery.workKey e, e) else p) := by
            simp [Discovery.selectStep, hz, hlk, Discovery.setWork,
              hp0find, Option.isSome, hcond]
          rw [hsw]
          have hepos : 0 < Discovery.priScore e := hzpos
          have hkeys : ∀ p : (String × String) × Discovery.Entry,
              ((if p.1 = Discovery.workKey e then
                (Discovery.workKey e, e) else p)).1 = p.1 := by
            intro p
            by_cases hpk : p.1 = Discovery.workKey e
            · simp [hpk]
            · simp [hpk]
          apply ih (seen ++ [e]) _ ?_ ?_ ?_
          · intro p' hp'
            obtain ⟨p, hp, hpeq⟩ := List.mem_map.mp hp'
            by_cases hpk : p.1 = Discovery.workKey e
            · rw [if_pos hpk] at hpeq
              have hpv : p.2 = prev := hkeyuniq p hp hpk
              rw [← hpeq]
              refine ⟨List.mem_append_right _ (List.mem_singleton.mpr rfl),
                rfl, hepos, ?_⟩
              intro e' he' hk' hpos'
              rcases List.mem_append.mp he' with he'' | he''
              · have hcase := hprevopt e' he''
                  (by simpa using hk') hpos'
                rcases hcond with hc1 | ⟨hc2, hc3⟩
                · rcases hcase with hlt | ⟨heq, _⟩
                  · exact Or.inl (by simpa using lt_trans hlt hc1)
                  · exact Or.inl (by simp only [heq]; simpa using hc1)
                · rcases hcase with hlt | ⟨heq, hle⟩
                  · exact Or.inl (by simp only []; omega)
                  · refine Or.inr ⟨by simp only []; omega, ?_⟩
                    have hlt' := StrOrder.lexLeB_of_lt e.relPath.data
                      prev.relPath.data hc3
                    exact StrOrder.lexLeB_trans e.relPath.data
                      prev.relPath.data e'.relPath.data hlt' hle
              · rw [List.mem_singleton.mp he'']
                exact Or.inr ⟨rfl, StrOrder.lexLeB_refl e.relPath.data⟩
            · rw [if_neg hpk] at hpeq
              rw [← hpeq]
              obtain ⟨hmem, hkey, hpos, hopt⟩ := h1 p hp
              refine ⟨List.mem_append_left _ hmem, hkey, hpos, ?_⟩
              intro e' he' hk' hpos'
              rcases List.mem_append.mp he' with he'' | he''
              · exact hopt e' he'' hk' hpos'
              · rw [List.mem_singleton.mp he''] at hk'
                exact absurd hk'.symm hpk
          · intro e' he' hpos'
            rcases List.mem_append.mp he' with he'' | he''
            · obtain ⟨q, hq, hqk⟩ := h2 e' he'' hpos'
              refine ⟨(if q.1 = Discovery.workKey e then
                (Discovery.workKey e, e) else q), List.mem_map_of_mem _ hq, ?_⟩
              rw [hkeys q, hqk]
            · rw [List.mem_singleton.mp he'']
              refine ⟨(if p0.1 = Discovery.workKey e then
                (Discovery.workKey e, e) else p0),
                List.mem_map_of_mem _ hp0mem, ?_⟩
              rw [hkeys p0, hp0key]
          · refine (List.pairwise_map.mpr (h3.imp ?_))
            intro a b hab
            rw [hkeys a, hkeys b]
            exact hab
        · have hsw : Discovery.selectStep sel e = sel := by
            simp only [Discovery.selectStep, hlk]
            rw [if_neg hz, if_neg hcond]
          rw [hsw]
          push_neg at hcond
          obtain ⟨hc1, hc2⟩ := hcond
          apply ih (seen ++ [e]) sel ?_ ?_ h3
          · intro p hp
            obtain ⟨hmem, hkey, hpos, hopt⟩ := h1 p hp
            refine ⟨List.mem_append_left _ hmem, hkey, hpos, ?_⟩
            intro e' he' hk' hpos'
            rcases List.mem_append.mp he' with he'' | he''
            · exact hopt e' he'' hk' hpos'
            · have heq' : e' = e := List.mem_singleton.mp he''
              rw [heq'] at hk' ⊢
              have hpv : p.2 = prev := hkeyuniq p hp hk'.symm
              rw [hpv]
              by_cases hsc : Discovery.priScore e = Discovery.priScore prev
              · have hnlt := hc2 hsc
                refine Or.inr ⟨hsc, ?_⟩
                exact StrOrder.lexLeB_of_not_lt e.relPath.data
                  prev.relPath.data (by simpa [StrOrder.sLt] using hnlt)
              · exact Or.inl (by omega)
          · intro e' he' hpos'
            rcases List.mem_append.mp he' with he'' | he''
            · exact h2 e' he'' hpos'
            · rw [List.mem_singleton.mp he'']
              exact ⟨p0, hp0mem, hp0key⟩

/-- C7 — the claim as stated fails for the filesystem-walk fallback: when
two files of the same work both carry the `pri` marker, the fallback keeps
the first one met by the walk even when the other has the
lexicographically smaller relative path, while the claimed
score-then-smallest-path policy picks the smaller path. -/
theorem c7_walk_fallback_counterexample :
    (Discovery.discoverWalk
      [{ authorDir := "A1", workDir := "W1", fileName := "b-pri.txt",
         relPath := "data/A1/W1/b-pri.txt", textLike := true },
       { authorDir := "A1", workDir := "W1", fileName := "a-pri.txt",
         relPath := "data/A1/W1/a-pri.txt", textLike := true }] 5 true).map
      Discovery.Discovered.repoPath = ["data/A1/W1/b-pri.txt"] ∧
    (Discovery.claimedDiscoverWalk
      [{ authorDir := "A1", workDir := "W1", fileName := "b-pri.txt",
         relPath := "data/A1/W1/b-pri.txt", textLike := true },
       { authorDir := "A1", workDir := "W1", fileName := "a-pri.txt",
         relPath := "data/A1/W1/a-pri.txt", textLike := true }] 5).map
      Discovery.Discovered.repoPath = ["data/A1/W1/a-pri.txt"] ∧
    Discovery.discoverWalk
      [{ authorDir := "A1", workDir := "W1", fileName := "b-pri.txt",
         relPath := "data/A1/W1/b-pri.txt", textLike := true },
       { authorDir := "A1", workDir := "W1", fileName := "a-pri.txt",
         relPath := "data/A1/W1/a-pri.txt", textLike := true }] 5 true ≠
    Discovery.claimedDiscoverWalk
      [{ authorDir := "A1", workDir := "W1", fileName := "b-pri.txt",
         relPath := "data/A1/W1/b-pri.txt", textLike := true },
       { authorDir := "A1", workDir := "W1", fileName := "a-pri.txt",
         relPath := "data/A1/W1/a-pri.txt", textLike := true }] 5 := by
  exact ⟨by decide, by decide, by decide⟩

/-- C7 (amended) — in the metadata-index branch the claimed policy holds:
the returned list is sorted by relative path, is cut off at the target
count, and every returned document comes from a positive-scoring entry
that beats every other positive-scoring entry of the same work — strictly
higher preference score, or equal score and lexicographically smallest
relative path.  The filesystem-walk fallback does not apply this policy
(see the counterexample): it keeps each work's first walk-encountered
`pri`-marked file, in encounter order. -/
theorem c7_discovery_metadata_policy (entries : List Discovery.Entry)
    (target : ℕ) :
    List.Pairwise (fun a b => StrOrder.sLe a b = true)
      ((Discovery.discoverMeta entries target true).map
        Discovery.Discovered.repoPath) ∧
    (Discovery.discoverMeta entries target true).length ≤ target ∧
    (∀ d ∈ Discovery.discoverMeta entries target true,
      ∃ e ∈ entries, d = Discovery.mkDiscovered e ∧
        0 < Discovery.priScore e ∧
        ∀ e' ∈ entries, Discovery.workKey e' = Discovery.workKey e →
          0 < Discovery.priScore e' →
          (Discovery.priScore e' < Discovery.priScore e ∨
            (Discovery.priScore e' = Discovery.priScore e ∧
              StrOrder.sLe e.relPath e'.relPath = true))) := by
  by_cases hguard : entries = [] ∨ target = 0
  · refine ⟨by simp [Discovery.discoverMeta, hguard], ?_, ?_⟩
    · simp [Discovery.discoverMeta, hguard]
    · simp [Discovery.discoverMeta, hguard]
  · have hout : Discovery.discoverMeta entries target true =
        (((List.insertionSort Discovery.pathLe
          ((Discovery.selectByWork entries).map Prod.snd)).take target).map
          Discovery.mkDiscovered).take target := by
      simp [Discovery.discoverMeta, hguard]
    have hsort : List.Pairwise Discovery.pathLe
        (List.insertionSort Discovery.pathLe
          ((Discovery.selectByWork entries).map Prod.snd)) :=
      List.sorted_insertionSort Discovery.pathLe _
    have htake : List.Pairwise Discovery.pathLe
        ((List.insertionSort Discovery.pathLe
          ((Discovery.selectByWork entries).map Prod.snd)).take target) :=
      List.Pairwise.sublist (List.take_sublist _ _) hsort
    refine ⟨?_, ?_, ?_⟩
    · rw [hout]
      refine List.pairwise_map.mpr ?_
      refine List.Pairwise.sublist (List.take_sublist _ _) ?_
      exact List.pairwise_map.mpr htake
    · rw [hout]
      exact List.length_take_le _ _
    · intro d hd
      rw [hout] at hd
      have hd1 := List.mem_of_mem_take hd
      obtain ⟨e0, he0, he0d⟩ := List.mem_map.mp hd1
      have he0' := List.mem_of_mem_take he0
      have he0'' := (List.perm_insertionSort Discovery.pathLe _).mem_iff.mp he0'
      obtain ⟨p, hp, hpe⟩ := List.mem_map.mp he0''
      have hinv := (selectStep_foldl_inv entries [] []
        (by simp) (by simp) (by simp)).1
      rw [Discovery.selectByWork] at hp
      obtain ⟨hmem, hkey, hpos, hopt⟩ := hinv p hp
      rw [List.nil_append] at hmem hopt
      rw [hpe] at hmem hkey hpos
      refine ⟨e0, hmem, he0d.symm, hpos, ?_⟩
      intro e' he' hk' hpos'
      have := hopt e' he' (by rw [hk', hkey]) hpos'
      rw [hpe] at this
      exact this

/-- Witness for the amended C7 statement: with one status-primary entry and
one filename-primary entry of the same work, discovery returns the
status-primary one and the selection facts hold concretely. -/
theorem c7_discovery_metadata_policy_witness :
    (Discovery.discoverMeta
      [{ authorDir := "A", workDir := "W", fileName := "x-pri.txt",
         relPath := "data/A/W/x-pri.txt", status := some "pri" },
       { authorDir := "A", workDir := "W", fileName := "y-pri.txt",
         relPath := "data/A/W/y-pri.txt", status := none }] 5 true).length ≤ 5 ∧
    (∃ e ∈ [({ authorDir := "A", workDir := "W", fileName := "x-pri.txt",
               relPath := "data/A/W/x-pri.txt", status := some "pri" } :
             Discovery.Entry),
            { authorDir := "A", workDir := "W", fileName := "y-pri.txt",
              relPath := "data/A/W/y-pri.txt", status := none }],
      Discovery.mkDiscovered
        { authorDir := "A", workDir := "W", fileName := "x-pri.txt",
          relPath := "data/A/W/x-pri.txt", status := some "pri" } =
        Discovery.mkDiscovered e ∧
      0 < Discovery.priScore e ∧
      ∀ e' ∈ [({ authorDir := "A", workDir := "W", fileName := "x-pri.txt",
                 relPath := "data/A/W/x-pri.txt", status := some "pri" } :
               Discovery.Entry),
              { authorDir := "A", workDir := "W", fileName := "y-pri.txt",
                relPath := "data/A/W/y-pri.txt", status := none }],
        Discovery.workKey e' = Discovery.workKey e →
        0 < Discovery.priScore e' →
        (Discovery.priScore e' < Discovery.priScore e ∨
          (Discovery.priScore e' = Discovery.priScore e ∧
            StrOrder.sLe e.relPath e'.relPath = true))) := by
  obtain ⟨h1, h2, h3⟩ := c7_discovery_metadata_policy
    [{ authorDir := "A", workDir := "W", fileName := "x-pri.txt",
       relPath := "data/A/W/x-pri.txt", status := some "pri" },
     { authorDir := "A", workDir := "W", fileName := "y-pri.txt",
       relPath := "data/A/W/y-pri.txt", status := none }] 5
  refine ⟨h2, ?_⟩
  obtain ⟨e, he, hed, hpos, hopt⟩ := h3
    (Discovery.mkDiscovered
      { authorDir := "A", workDir := "W", fileName := "x-pri.txt",
        relPath := "data/A/W/x-pri.txt", status := some "pri" })
    (by decide)
  exact ⟨e, he, hed, hpos, hopt⟩

/-- C8 — the highlight sanitizer keeps text and the emphasis tag (open and
close, case-insensitively, in canonical form) and deletes every other tag
without escaping, concatenating the surrounding text: proven for every
well-formed decomposition of the input into text pieces and tags, and on
the worked example. -/
theorem c8_sanitizer :
    (∀ (items : List Sanitize.Item), (∀ it ∈ items, Sanitize.WfItem it) →
      Sanitize.sanitizeChars (Sanitize.renderItems items) =
        (items.map Sanitize.sanitizeItem).flatten) ∧
    Sanitize.sanitizeStr "<b>x</b><em>y</em><script>z</script>" =
      "x<em>y</em>z" :=
  ⟨sanitize_render, by decide⟩

/-- Witness for C8 at the worked decomposition of the example snippet,
including an uppercase emphasis tag and an attribute section. -/
theorem c8_sanitizer_witness :
    Sanitize.sanitizeChars
        (Sanitize.renderItems
          [.tag false ['b'] [], .text ['x'], .tag true ['b'] [],
            .tag false ['E', 'M'] [' ', 'i', 'd', '=', '1'], .text ['y'],
            .tag true ['e', 'm'] [], .tag false ['s', 'c', 'r'] [],
            .text ['z'], .tag true ['s', 'c', 'r'] []]) =
      (([.tag false ['b'] [], .text ['x'], .tag true ['b'] [],
          .tag false ['E', 'M'] [' ', 'i', 'd', '=', '1'], .text ['y'],
          .tag true ['e', 'm'] [], .tag false ['s', 'c', 'r'] [],
          .text ['z'], .tag true ['s', 'c', 'r'] []] :
        List Sanitize.Item).map Sanitize.sanitizeItem).flatten := by
  apply c8_sanitizer.1
  intro it hit
  simp only [List.mem_cons, List.not_mem_nil, or_false] at hit
  rcases hit with rfl | rfl | rfl | rfl | rfl | rfl | rfl | rfl | rfl
  · exact ⟨by decide, by decide, Or.inl rfl⟩
  · exact show ('<' ∉ ['x']) from by decide
  · exact ⟨by decide, by decide, Or.inl rfl⟩
  · exact ⟨by decide, by decide, Or.inr ⟨⟨' ', ['i', 'd', '=', '1'],
      rfl, by decide⟩, by decide⟩⟩
  · exact show ('<' ∉ ['y']) from by decide
  · exact ⟨by decide, by decide, Or.inl rfl⟩
  · exact ⟨by decide, by decide, Or.inl rfl⟩
  · exact show ('<' ∉ ['z']) from by decide
  · exact ⟨by decide, by decide, Or.inl rfl⟩

/-- C2 — Reciprocal Rank Fusion: the fused score of every candidate is the
specification's sum `1/(k + rank)` over the retrievers in which it appears
(absent retrievers contributing zero, ranks starting at 1), the fused list
is sorted by descending score and is a permutation of the scored candidate
pool, `k` defaults to 60, hybrid search pages the fused list by
`(page-1)*size .. page*size`, and the worked example fuses to the order
`[B, A, C]`. -/
theorem c2_rrf_fusion :
    (∀ (k : ℕ) (bm vec : List String) (c : String),
      Fusion.rrfScore k bm vec c = Fusion.specRrfScore k [bm, vec] c) ∧
    (∀ (k : ℕ) (bm vec : List String),
      List.Sorted Fusion.scoreGe (Fusion.rrfFuse k bm vec)) ∧
    (∀ (k : ℕ) (bm vec : List String),
      (Fusion.rrfFuse k bm vec).Perm
        ((Fusion.rrfCandidates bm vec).map
          (fun c => (c, Fusion.rrfScore k bm vec c)))) ∧
    Fusion.rrf_k none = 60 ∧
    (∀ (φ : Type) (deps : SearchApi.Deps φ) (q : String) (size page : ℕ)
      (filters : φ) (vhits : List SearchApi.VecHit) (vt : ℕ),
      q.length ≤ deps.maxQueryLen →
      deps.vectorSearch (deps.encode q "query")
        (SearchApi.candidateK page size) 0 filters = .ok vhits →
      deps.vectorCount filters = .ok vt →
      ∃ resp, SearchApi.search deps q .hybrid size page filters = .ok resp ∧
        resp.results.map SearchApi.SearchHit.chunk_id =
          (((Fusion.rrfFuse deps.rrfK
              ((deps.bm25 q (SearchApi.candidateK page size) 0 filters
                false).hits.map SearchApi.osId)
              (SearchApi.vecIdsOf vhits)).drop ((page - 1) * size)).take
            size).map Prod.fst) ∧
    (Fusion.rrfFuse 60 ["A", "B"] ["B", "C"]).map Prod.fst =
      ["B", "A", "C"] := by
  refine ⟨?_, ?_, ?_, rfl, ?_, ?_⟩
  · intro k bm vec c
    cases h1 : Fusion.rankOf bm c <;> cases h2 : Fusion.rankOf vec c <;>
      simp [Fusion.rrfScore, Fusion.rrfScoreOf, Fusion.specRrfScore, h1, h2]
  · intro k bm vec
    rw [Fusion.rrfFuse]
    exact List.sorted_insertionSort Fusion.scoreGe _
  · intro k bm vec
    rw [Fusion.rrfFuse]
    exact List.perm_insertionSort Fusion.scoreGe _
  · intro φ deps q size page filters vhits vt hq hvec hcount
    have hq' : ¬ deps.maxQueryLen < q.length := not_lt.mpr hq
    simp only [SearchApi.search, if_neg hq', hvec, hcount]
    refine ⟨_, rfl, ?_⟩
    simp [List.map_map]
    rfl
  · have hA : Fusion.rrfScore 60 ["A", "B"] ["B", "C"] "A" = 1 / 61 := by
      norm_num [Fusion.rrfScore, Fusion.rrfScoreOf,
        show Fusion.rankOf ["A", "B"] "A" = some 1 from by decide,
        show Fusion.rankOf ["B", "C"] "A" = none from by decide]
    have hB : Fusion.rrfScore 60 ["A", "B"] ["B", "C"] "B" =
        1 / 62 + 1 / 61 := by
      norm_num [Fusion.rrfScore, Fusion.rrfScoreOf,
        show Fusion.rankOf ["A", "B"] "B" = some 2 from by decide,
        show Fusion.rankOf ["B", "C"] "B" = some 1 from by decide]
    have hC : Fusion.rrfScore 60 ["A", "B"] ["B", "C"] "C" = 1 / 62 := by
      norm_num [Fusion.rrfScore, Fusion.rrfScoreOf,
        show Fusion.rankOf ["A", "B"] "C" = none from by decide,
        show Fusion.rankOf ["B", "C"] "C" = some 2 from by decide]
    have hcand : Fusion.rrfCandidates ["A", "B"] ["B", "C"] =
        ["A", "B", "C"] := by decide
    have hfull : Fusion.rrfFuse 60 ["A", "B"] ["B", "C"] =
        [("B", 1 / 62 + 1 / 61), ("A", 1 / 61), ("C", 1 / 62)] := by
      rw [Fusion.rrfFuse, hcand]
      simp only [List.map_cons, List.map_nil, hA, hB, hC]
      norm_num [List.insertionSort, List.orderedInsert, Fusion.scoreGe]
    rw [hfull]
    rfl

/-- Witness for the hypothesis-bearing pagination part of the C2 statement
at concrete oracles. -/
theorem c2_rrf_fusion_witness :
    ∃ resp,
      SearchApi.search SearchApi.depsFilterRejectsAll "q" .hybrid 10 1 () =
        .ok resp ∧
      resp.results.map SearchApi.SearchHit.chunk_id =
        (((Fusion.rrfFuse SearchApi.depsFilterRejectsAll.rrfK
            ((SearchApi.depsFilterRejectsAll.bm25 "q"
              (SearchApi.candidateK 1 10) 0 () false).hits.map
              SearchApi.osId)
            (SearchApi.vecIdsOf
              [{ chunkId := some "V1", score := 1,
                 payload := "pV1" }])).drop ((1 - 1) * 10)).take 10).map
          Prod.fst :=
  c2_rrf_fusion.2.2.2.2.1 Unit SearchApi.depsFilterRejectsAll "q" 10 1 ()
    [{ chunkId := some "V1", score := 1, payload := "pV1" }] 1
    (by decide) rfl rfl

/-- C9 — the lexical-store re-verification of vector hits is applied only
in pure vector mode: every pure-vector result identifier is a member of the
allowed set returned by the filter check; the hybrid branch does not depend
on the filter-check oracle at all; and concrete oracles exist for which the
same vector hit is dropped in vector mode yet returned by hybrid mode. -/
theorem c9_filter_recheck_only_in_vector_mode :
    (∀ (φ : Type) (deps : SearchApi.Deps φ) (q : String) (size page : ℕ)
      (filters : φ) (vhits : List SearchApi.VecHit) (total : ℕ)
      (resp : SearchApi.SearchResponse),
      q.length ≤ deps.maxQueryLen →
      deps.vectorSearch (deps.encode q "query") size ((page - 1) * size)
        filters = .ok vhits →
      deps.vectorCount filters = .ok total →
      SearchApi.truthyIds vhits ≠ [] →
      SearchApi.search deps q .vector size page filters = .ok resp →
      ∀ h ∈ resp.results,
        h.chunk_id ∈ deps.filterChunkIds (SearchApi.truthyIds vhits) filters) ∧
    (∀ (φ : Type) (deps : SearchApi.Deps φ)
      (f : List String → φ → List String) (q : String) (size page : ℕ)
      (filters : φ),
      SearchApi.search { deps with filterChunkIds := f } q .hybrid size page
        filters = SearchApi.search deps q .hybrid size page filters) ∧
    ((∃ vresp,
      SearchApi.search SearchApi.depsFilterRejectsAll "q" .vector 10 1 () =
        .ok vresp ∧ vresp.results = []) ∧
     (∃ resp,
      SearchApi.search SearchApi.depsFilterRejectsAll "q" .hybrid 10 1 () =
        .ok resp ∧
      resp.results.map SearchApi.SearchHit.chunk_id = ["V1"] ∧
      SearchApi.depsFilterRejectsAll.filterChunkIds ["V1"] () = [])) := by
  refine ⟨?_, ?_, ⟨⟨_, rfl, rfl⟩, ⟨_, rfl, rfl, rfl⟩⟩⟩
  · intro φ deps q size page filters vhits total resp hq hvec hcount hne hsearch
    have hq' : ¬ deps.maxQueryLen < q.length := not_lt.mpr hq
    have hne' : (SearchApi.truthyIds vhits).isEmpty = false := by
      simpa using hne
    simp only [SearchApi.search, if_neg hq', hvec, hcount, hne',
      Bool.false_eq_true, if_false] at hsearch
    rw [Except.ok.injEq] at hsearch
    intro h hmem
    rw [← hsearch] at hmem
    simp only at hmem
    obtain ⟨a, ha, hfa⟩ := List.mem_filterMap.mp hmem
    obtain ⟨hav, hpred⟩ := List.mem_filter.mp ha
    cases hc : a.chunkId with
    | none => simp [hc] at hfa
    | some c =>
      simp only [hc] at hfa hpred
      by_cases hcempty : c = ""
      · simp [hcempty] at hfa
      · rw [if_neg hcempty] at hfa
        have hchk : h.chunk_id = c := by
          have := (Option.some.injEq _ _).mp hfa
          rw [← this]
        rw [hchk]
        simpa using hpred
  · intro φ deps f q size page filters
    rfl

/-- Witness for the universally quantified parts of the C9 statement at
concrete oracles. -/
theorem c9_filter_recheck_witness :
    (∀ h ∈ [({ chunk_id := "V1", score := 1, source := "pV1",
               highlight := none } : SearchApi.SearchHit)],
      h.chunk_id ∈
        ({ SearchApi.depsFilterRejectsAll with
            filterChunkIds := fun ids _ => ids }).filterChunkIds
          (SearchApi.truthyIds
            [{ chunkId := some "V1", score := 1, payload := "pV1" }]) ()) ∧
    SearchApi.search
        { SearchApi.depsFilterRejectsAll with
            filterChunkIds := fun ids _ => ids } "q" .hybrid 10 1 () =
      SearchApi.search SearchApi.depsFilterRejectsAll "q" .hybrid 10 1 () := by
  constructor
  · exact c9_filter_recheck_only_in_vector_mode.1 Unit
      { SearchApi.depsFilterRejectsAll with
          filterChunkIds := fun ids _ => ids }
      "q" 10 1 ()
      [{ chunkId := some "V1", score := 1, payload := "pV1" }] 1
      { query := "q", requestedMode := .vector, effectiveMode := .vector
        warnings := [], total := 1, page := 1, size := 10
        results := [{ chunk_id := "V1", score := 1, source := "pV1",
                      highlight := none }], facets := none }
      (by decide) rfl rfl (by decide) rfl
  · exact c9_filter_recheck_only_in_vector_mode.2.1 Unit
      SearchApi.depsFilterRejectsAll (fun ids _ => ids) "q" 10 1 ()

/-- Witness for the amended C10 statement at concrete inputs. -/
theorem c10_embed_validation_amended_witness :
    Embeddings.encode_texts [[97]] "x" =
      [Embeddings.passageMarker ++ Norm.normalize [97]] ∧
    (∃ out, Embeddings.embedEndpoint 32 256 [[97]] "query" = .ok out) := by
  refine ⟨by rw [c10_embed_validation_amended.1 [[97]] "x" (by decide)]; rfl, ?_⟩
  exact (c10_embed_validation_amended.2 32 256 [[97]] "query").mpr
    ⟨by decide, by decide, by decide, by decide⟩
